import Mathlib

/-!
Shallow embedding of the virtual texture streaming cache of the
`pdf-testing-webgl` repository, together with proofs of the spec's claims
about it.

Embedded source files:
* `src/gl/memoryManager.js` — `MemoryManager` (budget tracker),
* `src/layout/gridLayout.js` — `expandVisibleIndicesWithRing`,
* `src/gl/textureStreamManager.js` — `TextureStreamManager` (entry table,
  load scheduler, eviction policy, visibility driver).

Modelling conventions:
* JS numbers that hold byte counts / entry counts are embedded as `Int`
  (`Math.max(0, x)` becomes `max 0 x`); world coordinates and the
  oversubscription ratio are embedded as `ℚ` (exact arithmetic stands in
  for JS doubles).
* The code sorts eviction candidates by `Math.sqrt(dx*dx + dy*dy)`.  Since
  `Real.sqrt` is strictly monotone on nonnegative inputs, comparing square
  roots compares the radicands, so the embedding keeps the squared
  distance `dx*dx + dy*dy` and the induced order is identical.
* A JS `Set` is embedded as a `List Nat` in insertion order with
  membership-tested insertion; a JS `Map` of entries is a `List Entry` in
  insertion order (page indices are unique in every state the repository
  constructs, which the theorems assume explicitly where it matters).
* `async` load tasks suspend exactly once (at the renderer `await`).  The
  synchronous prefix of a task is one state-transition function, the
  resumption is another; the multiset of suspended tasks is tracked in
  `pendingLoads` / `pendingPreviews`.  The external renderer's outcome is
  an input of the resumption (`some result` for a resolved promise,
  `none` for a rejection).
* Calls into the external scene manager are recorded in an append-only
  trace `scene`; `ImageBitmap.close()` on a cancelled task's bitmap is
  recorded in `closedBitmaps`.
-/

/-- Lifecycle states of a page texture tier (the strings `"unloaded"`,
`"loading"`, `"ready"`, `"evicted"`, `"error"` in the source). -/
inductive TexState
  | unloaded
  | loading
  | ready
  | evicted
  | error
  deriving DecidableEq

/-- The memory policy record consumed by `MemoryManager` (`maxTextureBytes`,
`maxTextures`, `oversubscriptionRatio`). -/
structure MemoryPolicy where
  maxTextureBytes : ℚ
  maxTextures : Int
  oversubscriptionRatio : ℚ
  deriving DecidableEq

/-- The budget tracker of `src/gl/memoryManager.js`: running byte and count
usage against a fixed policy. -/
structure MemoryManager where
  policy : MemoryPolicy
  currentBytes : Int
  currentCount : Int
  deriving DecidableEq

/-- `new MemoryManager(policy)`. -/
def MemoryManager.init (policy : MemoryPolicy) : MemoryManager :=
  { policy := policy, currentBytes := 0, currentCount := 0 }

/-- `MemoryManager.add(bytes)`. -/
def MemoryManager.add (m : MemoryManager) (bytes : Int) : MemoryManager :=
  { m with currentBytes := m.currentBytes + bytes, currentCount := m.currentCount + 1 }

/-- `MemoryManager.remove(bytes)`: decrements usage, floored at zero via
`Math.max(0, _)`. -/
def MemoryManager.remove (m : MemoryManager) (bytes : Int) : MemoryManager :=
  { m with currentBytes := max 0 (m.currentBytes - bytes),
           currentCount := max 0 (m.currentCount - 1) }

/-- `MemoryManager.shouldEvict()`: over budget iff the count exceeds
`maxTextures` or the bytes exceed `maxTextureBytes * oversubscriptionRatio`. -/
def MemoryManager.shouldEvict (m : MemoryManager) : Bool :=
  decide (m.policy.maxTextures < m.currentCount) ||
  decide (m.policy.maxTextureBytes * m.policy.oversubscriptionRatio < (m.currentBytes : ℚ))

/-- The read-only usage snapshot returned by `MemoryManager.getUsage()`. -/
structure Usage where
  bytes : Int
  count : Int
  maxBytes : ℚ
  maxCount : Int
  deriving DecidableEq

/-- `MemoryManager.getUsage()`. -/
def MemoryManager.getUsage (m : MemoryManager) : Usage :=
  { bytes := m.currentBytes, count := m.currentCount,
    maxBytes := m.policy.maxTextureBytes, maxCount := m.policy.maxTextures }

/-- An acquire (`add`) or release (`remove`) event against the budget
tracker, used to describe arbitrary call sequences. -/
inductive MMOp
  | add (bytes : Int)
  | remove (bytes : Int)
  deriving DecidableEq

/-- Apply one budget-tracker event. -/
def MemoryManager.applyOp (m : MemoryManager) : MMOp → MemoryManager
  | .add b => m.add b
  | .remove b => m.remove b

/-- Apply a sequence of budget-tracker events. -/
def MemoryManager.runOps (m : MemoryManager) (ops : List MMOp) : MemoryManager :=
  ops.foldl MemoryManager.applyOp m

/-- One page of the computed grid layout, as consumed by the streaming
cache: its stable index, grid position and world-space center. -/
structure Page where
  pageIndex : Nat
  row : Nat
  col : Nat
  worldX : ℚ
  worldY : ℚ
  deriving DecidableEq

/-- The `pageLookup` object built with
`Object.fromEntries(layout.pages.map((p) => [p.pageIndex, p]))`:
lookup of a page by its page index. -/
def pageLookup (pages : List Page) (i : Nat) : Option Page :=
  pages.find? (fun p => p.pageIndex == i)

/-- `Set.prototype.add`: append unless already present (JS sets keep
insertion order and ignore duplicate insertions). -/
def setAdd (s : List Nat) (i : Nat) : List Nat :=
  if i ∈ s then s else s ++ [i]

/-- The offsets `-ring, …, ring` walked by the `for (let dy = -ring; dy <= ring; ...)`
loops of `expandVisibleIndicesWithRing`. -/
def ringOffsets (ring : Int) : List Int :=
  (List.range (2 * ring + 1).toNat).map (fun (k : Nat) => -ring + (k : Int))

/-- The body of the inner double loop of `expandVisibleIndicesWithRing`:
for a page `p` and offsets `dy`, `dx`, the neighbor index that gets added,
if any (`none` when `row < 0 || col < 0` or when `pageLookup` has no entry
at the computed index). -/
def neighborIndexAt (lk : Nat → Option Page) (columns : Nat) (p : Page)
    (dy dx : Int) : Option Nat :=
  let row : Int := (p.row : Int) + dy
  let col : Int := (p.col : Int) + dx
  if row < 0 ∨ col < 0 then none
  else
    let neighborIndex := (row * (columns : Int) + col).toNat
    match lk neighborIndex with
    | some _ => some neighborIndex
    | none => none

/-- The nested `dy`/`dx` loops of `expandVisibleIndicesWithRing` run for one
visible page, accumulating into the expanded set. -/
def addNeighbors (lk : Nat → Option Page) (columns : Nat) (ring : Int)
    (p : Page) (acc : List Nat) : List Nat :=
  (ringOffsets ring).foldl (fun acc1 dy =>
    (ringOffsets ring).foldl (fun acc2 dx =>
      match neighborIndexAt lk columns p dy dx with
      | some n => setAdd acc2 n
      | none => acc2) acc1) acc

/-- `expandVisibleIndicesWithRing(visibleIndices, pageLookup, columns, ring)`
from `src/layout/gridLayout.js`. -/
def expandVisibleIndicesWithRing (visibleIndices : List Nat) (pages : List Page)
    (columns : Nat) (ring : Int) : List Nat :=
  if visibleIndices.isEmpty ∨ ring ≤ 0 then visibleIndices
  else
    visibleIndices.foldl (fun expanded idx =>
      match pageLookup pages idx with
      | none => expanded
      | some page => addNeighbors (pageLookup pages) columns ring page expanded)
      visibleIndices

/-- Spec-side reading of ring expansion (claim C7's wording): a page index
belongs to the expanded set iff it is visible, or its grid cell is within
`r` steps of 8-neighbor adjacency (Chebyshev distance at most `r`) of some
visible page's grid cell. -/
def specRingReachable (visibleIndices : List Nat) (pages : List Page)
    (r : Nat) (i : Nat) : Bool :=
  visibleIndices.contains i ||
    visibleIndices.any (fun v =>
      match pageLookup pages v, pageLookup pages i with
      | some p, some q =>
          decide (((q.row : Int) - (p.row : Int)).natAbs ≤ r) &&
          decide (((q.col : Int) - (p.col : Int)).natAbs ≤ r)
      | _, _ => false)

/-- One record of the entry table (`this.entries`), as initialised in the
`TextureStreamManager` constructor.  Resource handles are modelled as the
numeric id of the wrapped bitmap (`none` = JS `null`). -/
structure Entry where
  pageIndex : Nat
  texture : Option Nat
  previewTexture : Option Nat
  previewState : TexState
  state : TexState
  pixelWidth : Nat
  pixelHeight : Nat
  bytesEstimate : Nat
  lastUsedTs : Nat
  deriving DecidableEq

/-- The value resolved by `pdfController.renderPageToCanvas`. -/
structure RenderResult where
  imageSource : Nat
  pixelWidth : Nat
  pixelHeight : Nat
  bytesEstimate : Nat
  downscaled : Bool
  deriving DecidableEq

/-- One call into the external scene manager (`setTexture` with its
`disposePrevious` option, or `clearTexture`), recorded as a trace event. -/
inductive SceneOp
  | set (pageIndex : Nat) (texture : Nat) (disposePrevious : Bool)
  | clear (pageIndex : Nat)
  deriving DecidableEq

/-- The mutable state of a `TextureStreamManager` instance.
`pendingLoads` / `pendingPreviews` hold the page indices of load tasks
currently suspended at their renderer `await`; `scene` and `closedBitmaps`
are append-only traces of externally visible effects. -/
structure TextureStreamManager where
  pages : List Page
  columns : Nat
  memoryManager : MemoryManager
  entries : List Entry
  loadQueue : List Nat
  activeLoads : Nat
  maxConcurrentLoads : Nat
  previewQueue : List Nat
  activePreviewLoads : Nat
  maxConcurrentPreviewLoads : Nat
  preloadRing : Int
  cancelled : Bool
  pendingLoads : List Nat
  pendingPreviews : List Nat
  scene : List SceneOp
  closedBitmaps : List Nat
  deriving DecidableEq

namespace TextureStreamManager

/-- `this.entries.get(pageIndex)`. -/
def findEntry (s : TextureStreamManager) (i : Nat) : Option Entry :=
  s.entries.find? (fun e => e.pageIndex == i)

/-- In-place mutation of the entry record with page index `i` (JS mutates
the object held by the `Map`; the embedding rewrites every list element
with that page index — there is exactly one whenever indices are unique). -/
def setEntry (s : TextureStreamManager) (i : Nat) (f : Entry → Entry) :
    TextureStreamManager :=
  { s with entries := s.entries.map (fun e => if e.pageIndex = i then f e else e) }

/-- `enqueue(pageIndex)`: append to the FIFO unless already queued. -/
def enqueue (s : TextureStreamManager) (i : Nat) : TextureStreamManager :=
  if i ∈ s.loadQueue then s else { s with loadQueue := s.loadQueue ++ [i] }

/-- Synchronous prefix of `loadPageTexture(pageIndex)` (everything before
the renderer `await`): mark the entry `loading`, bump `activeLoads`,
register the suspended task. -/
def loadPageTextureStart (s : TextureStreamManager) (i : Nat) :
    TextureStreamManager :=
  match s.findEntry i with
  | none => s
  | some _ =>
    let s1 := s.setEntry i (fun e => { e with state := .loading })
    { s1 with activeLoads := s1.activeLoads + 1,
              pendingLoads := s1.pendingLoads ++ [i] }

/-- Synchronous prefix of `loadPreviewTexture(pageIndex)`. -/
def loadPreviewTextureStart (s : TextureStreamManager) (i : Nat) :
    TextureStreamManager :=
  match s.findEntry i with
  | none => s
  | some _ =>
    let s1 := s.setEntry i (fun e => { e with previewState := .loading })
    { s1 with activePreviewLoads := s1.activePreviewLoads + 1,
              pendingPreviews := s1.pendingPreviews ++ [i] }

/-- The `while` loop of `pumpQueue()`, recursing on the queue contents
(which strictly shrinks at every iteration). -/
def pumpGo : List Nat → TextureStreamManager → TextureStreamManager
  | [], s => { s with loadQueue := [] }
  | i :: rest, s =>
    if s.activeLoads < s.maxConcurrentLoads then
      match s.findEntry i with
      | none => pumpGo rest { s with loadQueue := rest }
      | some e =>
        if e.state = .ready ∨ e.state = .loading then
          pumpGo rest { s with loadQueue := rest }
        else
          pumpGo rest (loadPageTextureStart { s with loadQueue := rest } i)
    else s

/-- `pumpQueue()`. -/
def pumpQueue (s : TextureStreamManager) : TextureStreamManager :=
  pumpGo s.loadQueue s

/-- The `while` loop of `pumpPreviewQueue()`. -/
def pumpPreviewGo : List Nat → TextureStreamManager → TextureStreamManager
  | [], s => { s with previewQueue := [] }
  | i :: rest, s =>
    if s.activePreviewLoads < s.maxConcurrentPreviewLoads then
      match s.findEntry i with
      | none => pumpPreviewGo rest { s with previewQueue := rest }
      | some e =>
        if e.previewState = .loading ∨ e.previewState = .ready then
          pumpPreviewGo rest { s with previewQueue := rest }
        else
          pumpPreviewGo rest (loadPreviewTextureStart { s with previewQueue := rest } i)
    else s

/-- `pumpPreviewQueue()`. -/
def pumpPreviewQueue (s : TextureStreamManager) : TextureStreamManager :=
  pumpPreviewGo s.previewQueue s

/-- The `for (const pageIndex of targetSet)` loop of `updateVisibleSet`:
touch `lastUsedTs` of `ready` entries, skip `loading` and missing ones,
enqueue the rest. -/
def targetPhase (s : TextureStreamManager) (targetSet : List Nat) (now : Nat) :
    TextureStreamManager :=
  targetSet.foldl (fun s1 i =>
    match s1.findEntry i with
    | none => s1
    | some e =>
      if e.state = .ready then s1.setEntry i (fun e1 => { e1 with lastUsedTs := now })
      else if e.state = .loading then s1
      else s1.enqueue i) s

/-- Squared Euclidean distance of a page's world position from the
reference point (the source compares `Math.sqrt` of this quantity; square
root is strictly monotone, so ordering by the square is the same order). -/
def distSq (p : Page) (centerX centerY : ℚ) : ℚ :=
  (p.worldX - centerX) * (p.worldX - centerX) +
  (p.worldY - centerY) * (p.worldY - centerY)

/-- Distance key computed for an entry in `evictIfNeeded`
(`this.pageLookup[entry.pageIndex]` never misses for entries built from the
same page list; the `getD` default merely totalises the JS field access). -/
def candidateDist (s : TextureStreamManager) (e : Entry) (centerX centerY : ℚ) : ℚ :=
  distSq ((pageLookup s.pages e.pageIndex).getD
    { pageIndex := e.pageIndex, row := 0, col := 0, worldX := 0, worldY := 0 })
    centerX centerY

/-- The candidate list of `evictIfNeeded`: every `ready` entry whose page
index is not pinned, paired with its distance key, in entry-table order. -/
def evictionCandidates (s : TextureStreamManager) (pinned : List Nat)
    (centerX centerY : ℚ) : List (Entry × ℚ) :=
  s.entries.filterMap (fun e =>
    if e.state = .ready ∧ ¬ e.pageIndex ∈ pinned then
      some (e, candidateDist s e centerX centerY)
    else none)

/-- The comparator of `evictIfNeeded`'s `evictable.sort` as an ordering
relation: `a` sorts no later than `b` (comparator value at most `0`) when
`a` is strictly farther, or equally far and used no more recently. -/
def evictRel (a b : Entry × ℚ) : Prop :=
  b.2 < a.2 ∨ (a.2 = b.2 ∧ a.1.lastUsedTs ≤ b.1.lastUsedTs)

instance : DecidableRel evictRel := fun a b => by
  unfold evictRel
  infer_instance

instance : IsTotal (Entry × ℚ) evictRel where
  total a b := by
    unfold evictRel
    rcases lt_trichotomy a.2 b.2 with h | h | h
    · right
      left
      exact h
    · rcases Nat.le_total a.1.lastUsedTs b.1.lastUsedTs with ht | ht
      · exact Or.inl (Or.inr ⟨h, ht⟩)
      · exact Or.inr (Or.inr ⟨h.symm, ht⟩)
    · left
      left
      exact h

instance : IsTrans (Entry × ℚ) evictRel where
  trans a b c hab hbc := by
    unfold evictRel at *
    rcases hab with h1 | ⟨h1, t1⟩ <;> rcases hbc with h2 | ⟨h2, t2⟩
    · exact Or.inl (h2.trans h1)
    · exact Or.inl (h2 ▸ h1)
    · exact Or.inl (h1 ▸ h2)
    · exact Or.inr ⟨h1.trans h2, t1.trans t2⟩

/-- The sorted candidate list walked by `evictIfNeeded`.  JS
`Array.prototype.sort` is stable, and a stable sort's output is uniquely
determined by the comparator, so the stable `insertionSort` produces
exactly the array the source walks. -/
def evictionCandidatesSorted (s : TextureStreamManager) (pinned : List Nat)
    (centerX centerY : ℚ) : List (Entry × ℚ) :=
  List.insertionSort evictRel (s.evictionCandidates pinned centerX centerY)

/-- One iteration of the eviction walk on the live entry with page index
`i`: return its bytes to the tracker, null the texture, mark `evicted`,
zero the metrics, refresh `lastUsedTs`, then fall back to the preview
texture or clear the presentation slot. -/
def evictOne (s : TextureStreamManager) (i : Nat) (now : Nat) :
    TextureStreamManager :=
  match s.findEntry i with
  | none => s
  | some cur =>
    let s1 := { s with memoryManager := s.memoryManager.remove (cur.bytesEstimate : Int) }
    let s2 := s1.setEntry i (fun e =>
      { e with texture := none, state := .evicted, bytesEstimate := 0,
               pixelHeight := 0, pixelWidth := 0, lastUsedTs := now })
    match cur.previewTexture with
    | some t => { s2 with scene := s2.scene ++ [SceneOp.set i t true] }
    | none => { s2 with scene := s2.scene ++ [SceneOp.clear i] }

/-- The `for (const item of evictable)` loop: evict in sorted order until
the budget condition clears or candidates run out. -/
def evictWalk : TextureStreamManager → List (Entry × ℚ) → Nat → TextureStreamManager
  | s, [], _ => s
  | s, c :: rest, now =>
    if s.memoryManager.shouldEvict then
      evictWalk (s.evictOne c.1.pageIndex now) rest now
    else s

/-- `evictIfNeeded(pinnedSet, center)`. -/
def evictIfNeeded (s : TextureStreamManager) (pinned : List Nat)
    (centerX centerY : ℚ) (now : Nat) : TextureStreamManager :=
  if s.memoryManager.shouldEvict then
    s.evictWalk (s.evictionCandidatesSorted pinned centerX centerY) now
  else s

/-- `updateVisibleSet(visibleSet, center)` with `Date.now()` passed in as
`now`. -/
def updateVisibleSet (s : TextureStreamManager) (visibleSet : List Nat)
    (centerX centerY : ℚ) (now : Nat) : TextureStreamManager :=
  if s.cancelled then s
  else
    let targetSet := expandVisibleIndicesWithRing visibleSet s.pages s.columns s.preloadRing
    let s1 := s.targetPhase targetSet now
    let s2 := s1.evictIfNeeded targetSet centerX centerY now
    s2.pumpQueue

/-- Resumption of `loadPageTexture(pageIndex)` after the renderer settles:
`res = none` models a rejected render promise (the `catch` branch),
`res = some r` a resolved one.  A resolved result on a cancelled manager is
closed and discarded; otherwise the entry becomes `ready`, its bytes are
registered and the texture is handed to the scene manager.  Either way the
`finally` block decrements `activeLoads` and pumps the queue. -/
def finishLoad (s : TextureStreamManager) (i : Nat) (res : Option RenderResult)
    (now : Nat) : TextureStreamManager :=
  if i ∈ s.pendingLoads then
    let s0 := { s with pendingLoads := s.pendingLoads.erase i }
    let s1 :=
      match res with
      | none => s0.setEntry i (fun e => { e with state := .error })
      | some r =>
        if s0.cancelled then { s0 with closedBitmaps := s0.closedBitmaps ++ [r.imageSource] }
        else
          let sA := s0.setEntry i (fun e =>
            { e with texture := some r.imageSource, state := .ready,
                     pixelWidth := r.pixelWidth, pixelHeight := r.pixelHeight,
                     bytesEstimate := r.bytesEstimate, lastUsedTs := now })
          let sB := { sA with memoryManager := sA.memoryManager.add (r.bytesEstimate : Int) }
          let disposePrev :=
            match sB.findEntry i with
            | some e => e.previewTexture.isNone
            | none => true
          { sB with scene := sB.scene ++ [SceneOp.set i r.imageSource disposePrev] }
    pumpQueue { s1 with activeLoads := s1.activeLoads - 1 }
  else s

/-- Resumption of `loadPreviewTexture(pageIndex)` after the renderer
settles.  A fresh preview is handed to the scene manager only when the
full-resolution tier is not already `ready`. -/
def finishPreview (s : TextureStreamManager) (i : Nat)
    (res : Option RenderResult) : TextureStreamManager :=
  if i ∈ s.pendingPreviews then
    let s0 := { s with pendingPreviews := s.pendingPreviews.erase i }
    let s1 :=
      match res with
      | none => s0.setEntry i (fun e => { e with previewState := .error })
      | some r =>
        if s0.cancelled then { s0 with closedBitmaps := s0.closedBitmaps ++ [r.imageSource] }
        else
          let sA := s0.setEntry i (fun e =>
            { e with previewTexture := some r.imageSource, previewState := .ready })
          match sA.findEntry i with
          | some e =>
            if e.state ≠ .ready then { sA with scene := sA.scene ++ [SceneOp.set i r.imageSource true] }
            else sA
          | none => sA
    pumpPreviewQueue { s1 with activePreviewLoads := s1.activePreviewLoads - 1 }
  else s

/-- `dispose()`: set the cancelled flag, drop both queues, clear every
tracked presentation slot that holds (or should hold) a texture, and null
all resource handles.  States and the budget tracker are left untouched.
(The GPU-side `previewTexture.dispose()` call frees driver memory and has
no observable effect on the modelled state.) -/
def dispose (s : TextureStreamManager) : TextureStreamManager :=
  let s1 := { s with cancelled := true, loadQueue := [], previewQueue := [] }
  let clears := s1.entries.filterMap (fun e =>
    if e.texture.isSome || e.previewTexture.isSome || e.state = .ready then
      some (SceneOp.clear e.pageIndex)
    else none)
  { s1 with scene := s1.scene ++ clears,
            entries := s1.entries.map (fun e =>
              { e with texture := none, previewTexture := none }) }

/-- `getUsage()`. -/
def getUsage (s : TextureStreamManager) : Usage :=
  s.memoryManager.getUsage

/-- The constructor: one `unloaded` entry per layout page, every page
queued for a preview, and an initial `pumpPreviewQueue()`. -/
def init (pages : List Page) (columns : Nat) (policy : MemoryPolicy) :
    TextureStreamManager :=
  let s : TextureStreamManager :=
    { pages := pages, columns := columns,
      memoryManager := MemoryManager.init policy,
      entries := pages.map (fun p =>
        { pageIndex := p.pageIndex, texture := none, previewTexture := none,
          previewState := .unloaded, state := .unloaded,
          pixelWidth := 0, pixelHeight := 0, bytesEstimate := 0, lastUsedTs := 0 }),
      loadQueue := [], activeLoads := 0, maxConcurrentLoads := 2,
      previewQueue := pages.map (fun p => p.pageIndex),
      activePreviewLoads := 0, maxConcurrentPreviewLoads := 1,
      preloadRing := 1, cancelled := false,
      pendingLoads := [], pendingPreviews := [], scene := [], closedBitmaps := [] }
  s.pumpPreviewQueue

end TextureStreamManager

/-- One externally triggered event against a `TextureStreamManager`: a
per-frame visibility pass, the settling of a suspended full or preview
load task, or disposal. -/
inductive Op
  | update (visibleSet : List Nat) (centerX centerY : ℚ) (now : Nat)
  | finishLoad (i : Nat) (res : Option RenderResult) (now : Nat)
  | finishPreview (i : Nat) (res : Option RenderResult)
  | dispose
  deriving DecidableEq

/-- Apply one event. -/
def TextureStreamManager.step (s : TextureStreamManager) : Op → TextureStreamManager
  | .update v cx cy now => s.updateVisibleSet v cx cy now
  | .finishLoad i r now => s.finishLoad i r now
  | .finishPreview i r => s.finishPreview i r
  | .dispose => s.dispose

/-- Apply a sequence of events; every state the cache can reach is
`(init pages columns policy).run ops` for some event list `ops`. -/
def TextureStreamManager.run (s : TextureStreamManager) (ops : List Op) :
    TextureStreamManager :=
  ops.foldl TextureStreamManager.step s

/-! ### Budget tracker facts (claim C9) -/

/-- Both usage counters stay nonnegative under any event sequence whose
acquisitions are of nonnegative sizes. -/
theorem MemoryManager.runOps_nonneg (m : MemoryManager) (ops : List MMOp)
    (hadd : ∀ b : Int, MMOp.add b ∈ ops → 0 ≤ b)
    (hb : 0 ≤ m.currentBytes) (hc : 0 ≤ m.currentCount) :
    0 ≤ (m.runOps ops).currentBytes ∧ 0 ≤ (m.runOps ops).currentCount := by
  induction ops generalizing m with
  | nil => exact ⟨hb, hc⟩
  | cons op rest ih =>
    have hrest : ∀ b : Int, MMOp.add b ∈ rest → 0 ≤ b := by
      intro b hbmem
      exact hadd b (List.mem_cons_of_mem _ hbmem)
    cases op with
    | add b =>
      have h0 : (0 : Int) ≤ b := hadd b (List.mem_cons_self _ _)
      exact ih (m.add b) hrest (by simp [MemoryManager.add]; omega)
        (by simp [MemoryManager.add]; omega)
    | remove b =>
      exact ih (m.remove b) hrest (by simp [MemoryManager.remove])
        (by simp [MemoryManager.remove])

/-- C9: `overBudget()` (the source's `shouldEvict()`) is true iff the entry
count exceeds `maxTextures` or the byte usage exceeds
`maxTextureBytes × oversubscriptionRatio`; and starting from a fresh
tracker, any sequence of `add`/`remove` calls whose added sizes are
nonnegative leaves `currentBytes` and `currentCount` nonnegative (release
is floored at zero). -/
theorem C9_overBudget_iff_and_usage_nonneg :
    (∀ m : MemoryManager, m.shouldEvict = true ↔
      (m.policy.maxTextures < m.currentCount ∨
       m.policy.maxTextureBytes * m.policy.oversubscriptionRatio < (m.currentBytes : ℚ))) ∧
    (∀ (policy : MemoryPolicy) (ops : List MMOp),
      (∀ b : Int, MMOp.add b ∈ ops → 0 ≤ b) →
      0 ≤ ((MemoryManager.init policy).runOps ops).currentBytes ∧
      0 ≤ ((MemoryManager.init policy).runOps ops).currentCount) := by
  constructor
  · intro m
    simp [MemoryManager.shouldEvict]
  · intro policy ops hadd
    exact MemoryManager.runOps_nonneg _ ops hadd le_rfl le_rfl

/-- Witness for C9 at a concrete policy and call sequence. -/
theorem C9_witness :
    0 ≤ ((MemoryManager.init ⟨100, 10, 1⟩).runOps
          [MMOp.add 7, MMOp.remove 30, MMOp.add 4]).currentBytes ∧
    0 ≤ ((MemoryManager.init ⟨100, 10, 1⟩).runOps
          [MMOp.add 7, MMOp.remove 30, MMOp.add 4]).currentCount :=
  C9_overBudget_iff_and_usage_nonneg.2 ⟨100, 10, 1⟩
    [MMOp.add 7, MMOp.remove 30, MMOp.add 4]
    (by intro b hb; simp at hb; omega)

/-! ### Full-resolution queue facts (claim C8) -/

/-- C8: `enqueue` is idempotent — queueing a page index twice leaves the
FIFO exactly as queueing it once — and it preserves freedom from
duplicates, so the load queue never holds two occurrences of an index. -/
theorem C8_enqueue_idempotent_nodup (s : TextureStreamManager) (i : Nat) :
    (s.enqueue i).enqueue i = s.enqueue i ∧
    (s.loadQueue.Nodup → ((s.enqueue i).loadQueue).Nodup) := by
  constructor
  · by_cases h : i ∈ s.loadQueue
    · simp [TextureStreamManager.enqueue, h]
    · simp [TextureStreamManager.enqueue, h]
  · intro hnd
    by_cases h : i ∈ s.loadQueue
    · simpa [TextureStreamManager.enqueue, h] using hnd
    · simp [TextureStreamManager.enqueue, h, List.nodup_append, hnd]

/-- Witness for C8 on a concrete manager state. -/
theorem C8_witness :
    let s := TextureStreamManager.init [⟨0, 0, 0, 0, 0⟩, ⟨1, 0, 1, 1, 0⟩] 2 ⟨100, 10, 1⟩
    ((s.enqueue 1).enqueue 1 = s.enqueue 1 ∧
     (s.loadQueue.Nodup → ((s.enqueue 1).loadQueue).Nodup)) ∧
    ((s.enqueue 1).loadQueue).Nodup := by
  refine ⟨C8_enqueue_idempotent_nodup _ 1, ?_⟩
  exact (C8_enqueue_idempotent_nodup _ 1).2 (by decide)

/-! ### Dispose facts (claims C10 and C6) -/

/-- C10: `dispose()` never modifies the budget tracker — `usage()` right
after `dispose()` equals `usage()` right before — and it preserves every
entry's full-resolution state (in particular `ready` entries stay `ready`);
only the resource handles are cleared. -/
theorem C10_dispose_preserves_tracker_and_states (s : TextureStreamManager) :
    (s.dispose).getUsage = s.getUsage ∧
    (s.dispose).memoryManager = s.memoryManager ∧
    (s.dispose).entries.map Entry.state = s.entries.map Entry.state ∧
    ∀ e ∈ (s.dispose).entries, e.texture = none ∧ e.previewTexture = none := by
  refine ⟨rfl, rfl, ?_, ?_⟩
  · simp [TextureStreamManager.dispose, List.map_map]
  · intro e he
    simp [TextureStreamManager.dispose, List.mem_map] at he
    obtain ⟨a, _, rfl⟩ := he
    exact ⟨rfl, rfl⟩

/-- C6: if `dispose()` ran while a full-resolution load was awaiting the
renderer, the later resolution of that render closes the fresh bitmap and
returns without further mutation — the entry table, the budget tracker and
the scene-manager trace are exactly as `dispose()` left them, and the
closed bitmap is the one the renderer just produced. -/
theorem C6_finishLoad_after_dispose (s : TextureStreamManager) (i : Nat)
    (r : RenderResult) (now : Nat)
    (hpending : i ∈ (s.dispose).pendingLoads) :
    ((s.dispose).finishLoad i (some r) now).entries = (s.dispose).entries ∧
    ((s.dispose).finishLoad i (some r) now).memoryManager = (s.dispose).memoryManager ∧
    ((s.dispose).finishLoad i (some r) now).scene = (s.dispose).scene ∧
    ((s.dispose).finishLoad i (some r) now).closedBitmaps
      = (s.dispose).closedBitmaps ++ [r.imageSource] := by
  have hcancel : (s.dispose).cancelled = true := rfl
  have hqueue : (s.dispose).loadQueue = [] := rfl
  simp only [TextureStreamManager.finishLoad, hpending, if_pos, hcancel,
    TextureStreamManager.pumpQueue, hqueue, TextureStreamManager.pumpGo]
  simp

/-- A concrete reachable state used by witnesses: one page at the origin,
an entry cap of `-1` (so the tracker is permanently over its count budget),
and one visibility pass that left page 0's full-resolution load suspended
at the renderer. -/
def stateOneLoadInFlight : TextureStreamManager :=
  (TextureStreamManager.init [⟨0, 0, 0, 0, 0⟩] 1 ⟨100, -1, 1⟩).run
    [Op.update [0] 0 0 1]

/-- Witness for C6: disposing `stateOneLoadInFlight` and then letting the
suspended render of page 0 resolve leaves the entry table, tracker and
scene trace untouched and closes bitmap 9. -/
theorem C6_witness :
    ((stateOneLoadInFlight.dispose).finishLoad 0 (some ⟨9, 8, 8, 40, false⟩) 5).entries
        = (stateOneLoadInFlight.dispose).entries ∧
    ((stateOneLoadInFlight.dispose).finishLoad 0 (some ⟨9, 8, 8, 40, false⟩) 5).memoryManager
        = (stateOneLoadInFlight.dispose).memoryManager ∧
    ((stateOneLoadInFlight.dispose).finishLoad 0 (some ⟨9, 8, 8, 40, false⟩) 5).scene
        = (stateOneLoadInFlight.dispose).scene ∧
    ((stateOneLoadInFlight.dispose).finishLoad 0 (some ⟨9, 8, 8, 40, false⟩) 5).closedBitmaps
        = (stateOneLoadInFlight.dispose).closedBitmaps ++ [9] :=
  C6_finishLoad_after_dispose stateOneLoadInFlight 0 ⟨9, 8, 8, 40, false⟩ 5 (by decide)

/-! ### Ring expansion (claim C7) -/

/-- Membership in a JS-set insertion. -/
theorem mem_setAdd {s : List Nat} {i j : Nat} :
    i ∈ setAdd s j ↔ i ∈ s ∨ i = j := by
  by_cases h : j ∈ s
  · simp only [setAdd, if_pos h]
    exact ⟨Or.inl, fun h2 => h2.elim id (fun he => he ▸ h)⟩
  · simp [setAdd, if_neg h]

/-- The loop offsets are exactly the integers between `-ring` and `ring`. -/
theorem mem_ringOffsets {ring d : Int} :
    d ∈ ringOffsets ring ↔ -ring ≤ d ∧ d ≤ ring := by
  unfold ringOffsets
  rw [List.mem_map]
  constructor
  · rintro ⟨k, hk, rfl⟩
    rw [List.mem_range] at hk
    omega
  · intro h
    refine ⟨(d + ring).toNat, ?_, ?_⟩
    · rw [List.mem_range]
      omega
    · omega

/-- What it means for the loop body to add index `i` for offsets
`dy`, `dx`. -/
theorem neighborIndexAt_eq_some (lk : Nat → Option Page) (columns : Nat)
    (p : Page) (dy dx : Int) (i : Nat) :
    neighborIndexAt lk columns p dy dx = some i ↔
      (0 ≤ (p.row : Int) + dy ∧ 0 ≤ (p.col : Int) + dx ∧
       (i : Int) = ((p.row : Int) + dy) * columns + ((p.col : Int) + dx) ∧
       (lk i).isSome) := by
  unfold neighborIndexAt
  by_cases hneg : ((p.row : Int) + dy < 0 ∨ (p.col : Int) + dx < 0)
  · simp only [if_pos hneg]
    constructor
    · intro h; exact absurd h (by simp)
    · intro h; omega
  · simp only [if_neg hneg]
    have hrow : 0 ≤ (p.row : Int) + dy := by omega
    have hcol : 0 ≤ (p.col : Int) + dx := by omega
    set n := (((p.row : Int) + dy) * columns + ((p.col : Int) + dx)).toNat with hn
    have hcast : (n : Int) = ((p.row : Int) + dy) * columns + ((p.col : Int) + dx) := by
      have : 0 ≤ ((p.row : Int) + dy) * columns + ((p.col : Int) + dx) :=
        add_nonneg (mul_nonneg hrow (by positivity)) hcol
      omega
    cases hlk : lk n with
    | some pg =>
      simp only [hlk, Option.some.injEq]
      constructor
      · rintro rfl
        exact ⟨hrow, hcol, hcast, by simp [hlk]⟩
      · rintro ⟨-, -, hi, -⟩
        omega
    | none =>
      simp only [hlk]
      constructor
      · intro h; exact absurd h (by simp)
      · rintro ⟨-, -, hi, hsome⟩
        have : i = n := by omega
        rw [this, hlk] at hsome
        simp at hsome

/-- Membership after the inner `dx` loop of the ring expansion. -/
theorem mem_foldl_dx (lk : Nat → Option Page) (columns : Nat) (p : Page)
    (dy : Int) (l : List Int) (acc : List Nat) (i : Nat) :
    i ∈ l.foldl (fun acc2 dx =>
        match neighborIndexAt lk columns p dy dx with
        | some n => setAdd acc2 n
        | none => acc2) acc ↔
      i ∈ acc ∨ ∃ dx ∈ l, neighborIndexAt lk columns p dy dx = some i := by
  induction l generalizing acc with
  | nil => simp
  | cons d rest ih =>
    rw [List.foldl_cons]
    cases hd : neighborIndexAt lk columns p dy d with
    | none =>
      simp only [hd]
      rw [ih]
      simp only [List.mem_cons]
      constructor
      · rintro (h | ⟨dx, hdx, hsome⟩)
        · exact Or.inl h
        · exact Or.inr ⟨dx, Or.inr hdx, hsome⟩
      · rintro (h | ⟨dx, rfl | hdx, hsome⟩)
        · exact Or.inl h
        · rw [hd] at hsome
          exact absurd hsome (by simp)
        · exact Or.inr ⟨dx, hdx, hsome⟩
    | some n =>
      simp only [hd]
      rw [ih]
      simp only [mem_setAdd, List.mem_cons]
      constructor
      · rintro ((h | rfl) | ⟨dx, hdx, hsome⟩)
        · exact Or.inl h
        · exact Or.inr ⟨d, Or.inl rfl, by rw [hd]⟩
        · exact Or.inr ⟨dx, Or.inr hdx, hsome⟩
      · rintro (h | ⟨dx, rfl | hdx, hsome⟩)
        · exact Or.inl (Or.inl h)
        · rw [hd] at hsome
          exact Or.inl (Or.inr (Option.some.injEq _ _ ▸ hsome).symm)
        · exact Or.inr ⟨dx, hdx, hsome⟩

/-- Membership after the outer `dy` loop (with an arbitrary inner offset
list, to allow induction on the outer one). -/
theorem mem_foldl_dy (lk : Nat → Option Page) (columns : Nat) (p : Page)
    (inner : List Int) (L : List Int) (acc : List Nat) (i : Nat) :
    i ∈ L.foldl (fun acc1 dy =>
        inner.foldl (fun acc2 dx =>
          match neighborIndexAt lk columns p dy dx with
          | some n => setAdd acc2 n
          | none => acc2) acc1) acc ↔
      i ∈ acc ∨ ∃ dy ∈ L, ∃ dx ∈ inner,
        neighborIndexAt lk columns p dy dx = some i := by
  induction L generalizing acc with
  | nil => simp
  | cons d rest ih =>
    rw [List.foldl_cons, ih, mem_foldl_dx]
    simp only [List.mem_cons]
    constructor
    · rintro ((h | ⟨dx, hdx, hsome⟩) | ⟨dy, hdy, dx, hdx, hsome⟩)
      · exact Or.inl h
      · exact Or.inr ⟨d, Or.inl rfl, dx, hdx, hsome⟩
      · exact Or.inr ⟨dy, Or.inr hdy, dx, hdx, hsome⟩
    · rintro (h | ⟨dy, rfl | hdy, dx, hdx, hsome⟩)
      · exact Or.inl (Or.inl h)
      · exact Or.inl (Or.inr ⟨dx, hdx, hsome⟩)
      · exact Or.inr ⟨dy, hdy, dx, hdx, hsome⟩

/-- Membership after the double `dy`/`dx` loop run for one visible page. -/
theorem mem_addNeighbors (lk : Nat → Option Page) (columns : Nat) (ring : Int)
    (p : Page) (acc : List Nat) (i : Nat) :
    i ∈ addNeighbors lk columns ring p acc ↔
      i ∈ acc ∨ ∃ dy ∈ ringOffsets ring, ∃ dx ∈ ringOffsets ring,
        neighborIndexAt lk columns p dy dx = some i := by
  unfold addNeighbors
  exact mem_foldl_dy lk columns p (ringOffsets ring) (ringOffsets ring) acc i

/-- Membership after the loop over all visible indices. -/
theorem mem_expandLoop (pages : List Page) (columns : Nat) (ring : Int)
    (V : List Nat) (acc : List Nat) (i : Nat) :
    i ∈ V.foldl (fun expanded idx =>
        match pageLookup pages idx with
        | none => expanded
        | some page => addNeighbors (pageLookup pages) columns ring page expanded) acc ↔
      i ∈ acc ∨ ∃ v ∈ V, ∃ p, pageLookup pages v = some p ∧
        ∃ dy ∈ ringOffsets ring, ∃ dx ∈ ringOffsets ring,
          neighborIndexAt (pageLookup pages) columns p dy dx = some i := by
  induction V generalizing acc with
  | nil => simp
  | cons v rest ih =>
    rw [List.foldl_cons]
    cases hv : pageLookup pages v with
    | none =>
      simp only [hv]
      rw [ih]
      simp only [List.mem_cons]
      constructor
      · rintro (h | ⟨w, hw, hrest⟩)
        · exact Or.inl h
        · exact Or.inr ⟨w, Or.inr hw, hrest⟩
      · rintro (h | ⟨w, rfl | hw, p, hp, hrest⟩)
        · exact Or.inl h
        · rw [hv] at hp
          exact absurd hp (by simp)
        · exact Or.inr ⟨w, hw, p, hp, hrest⟩
    | some page =>
      simp only [hv]
      rw [ih, mem_addNeighbors]
      simp only [List.mem_cons]
      constructor
      · rintro ((h | hadd) | ⟨w, hw, hrest⟩)
        · exact Or.inl h
        · exact Or.inr ⟨v, Or.inl rfl, page, hv, hadd⟩
        · exact Or.inr ⟨w, Or.inr hw, hrest⟩
      · rintro (h | ⟨w, rfl | hw, p, hp, hrest⟩)
        · exact Or.inl (Or.inl h)
        · rw [hv] at hp
          cases hp
          exact Or.inl (Or.inr hrest)
        · exact Or.inr ⟨w, hw, p, hp, hrest⟩

/-- C7 (counterexample): on a 2-column grid with five pages laid out in
row-major order, a visibility set of just page 1 (grid cell `(0, 1)`) and
ring radius 1, the code adds page 4 — whose grid cell `(2, 0)` is two
8-neighbor steps away — because the `col = 2` overflow is not checked
against the column count and the computed index `0 * 2 + 2 = 2 … 1 * 2 + 2 = 4`
wraps into later rows.  The claimed characterisation (visible plus pages
within Chebyshev distance 1) excludes page 4. -/
theorem C7_counterexample :
    4 ∈ expandVisibleIndicesWithRing [1]
        [⟨0, 0, 0, 0, 0⟩, ⟨1, 0, 1, 0, 0⟩, ⟨2, 1, 0, 0, 0⟩, ⟨3, 1, 1, 0, 0⟩, ⟨4, 2, 0, 0, 0⟩]
        2 1 ∧
    specRingReachable [1]
        [⟨0, 0, 0, 0, 0⟩, ⟨1, 0, 1, 0, 0⟩, ⟨2, 1, 0, 0, 0⟩, ⟨3, 1, 1, 0, 0⟩, ⟨4, 2, 0, 0, 0⟩]
        1 4 = false := by
  decide

/-- C7 (amended): the expanded target set returned by
`expandVisibleIndicesWithRing` is exactly the visible set plus every page
index of the form `(row + dy) * columns + (col + dx)` — for some visible
page at grid cell `(row, col)`, offsets `|dy| ≤ r`, `|dx| ≤ r` with
nonnegative resulting coordinates — that exists in the page lookup.
Because the column coordinate may overflow the column count, such an index
can denote a page in a non-adjacent grid cell (it is not the claimed
8-neighbor reachability). -/
theorem C7_expand_characterisation (visibleIndices : List Nat)
    (pages : List Page) (columns : Nat) (ring : Int) (i : Nat) :
    i ∈ expandVisibleIndicesWithRing visibleIndices pages columns ring ↔
      i ∈ visibleIndices ∨
      (0 < ring ∧ ∃ v ∈ visibleIndices, ∃ p, pageLookup pages v = some p ∧
        ∃ dy dx : Int, -ring ≤ dy ∧ dy ≤ ring ∧ -ring ≤ dx ∧ dx ≤ ring ∧
          0 ≤ (p.row : Int) + dy ∧ 0 ≤ (p.col : Int) + dx ∧
          (i : Int) = ((p.row : Int) + dy) * columns + ((p.col : Int) + dx) ∧
          (pageLookup pages i).isSome) := by
  unfold expandVisibleIndicesWithRing
  by_cases hguard : visibleIndices.isEmpty ∨ ring ≤ 0
  · rw [if_pos hguard]
    constructor
    · exact Or.inl
    · rintro (h | ⟨hring, v, hv, -⟩)
      · exact h
      · rcases hguard with hemp | hle
        · rw [List.isEmpty_iff] at hemp
          subst hemp
          exact absurd hv (List.not_mem_nil v)
        · omega
  · rw [if_neg hguard]
    rw [mem_expandLoop]
    push_neg at hguard
    constructor
    · rintro (h | ⟨v, hv, p, hp, dy, hdy, dx, hdx, hsome⟩)
      · exact Or.inl h
      · rw [mem_ringOffsets] at hdy hdx
        rw [neighborIndexAt_eq_some] at hsome
        exact Or.inr ⟨by omega, v, hv, p, hp, dy, dx, hdy.1, hdy.2, hdx.1, hdx.2,
          hsome.1, hsome.2.1, hsome.2.2.1, hsome.2.2.2⟩
    · rintro (h | ⟨-, v, hv, p, hp, dy, dx, h1, h2, h3, h4, h5, h6, h7, h8⟩)
      · exact Or.inl h
      · refine Or.inr ⟨v, hv, p, hp, dy, ?_, dx, ?_, ?_⟩
        · rw [mem_ringOffsets]
          exact ⟨h1, h2⟩
        · rw [mem_ringOffsets]
          exact ⟨h3, h4⟩
        · rw [neighborIndexAt_eq_some]
          exact ⟨h5, h6, h7, h8⟩

/-! ### Entry-table helper lemmas -/

/-- With unique page indices, looking an entry up by its own index finds
exactly that entry. -/
theorem find?_entry_eq_of_mem (l : List Entry) (e : Entry)
    (hnd : (l.map Entry.pageIndex).Nodup) (he : e ∈ l) :
    l.find? (fun x => x.pageIndex == e.pageIndex) = some e := by
  induction l with
  | nil => exact absurd he (List.not_mem_nil e)
  | cons x xs ih =>
    rw [List.map_cons, List.nodup_cons] at hnd
    rcases List.mem_cons.mp he with rfl | hmem
    · rw [List.find?_cons]
      simp
    · rw [List.find?_cons]
      have hne : (x.pageIndex == e.pageIndex) = false := by
        rw [beq_eq_false_iff_ne]
        intro hx
        exact hnd.1 (hx ▸ List.mem_map_of_mem Entry.pageIndex hmem)
      rw [hne]
      exact ih hnd.2 hmem

/-- An index-preserving rewrite of the entry with page index `i` does not
change lookups of other indices. -/
theorem find?_map_update_ne (l : List Entry) (i j : Nat) (f : Entry → Entry)
    (hf : ∀ x, (f x).pageIndex = x.pageIndex) (hne : j ≠ i) :
    (l.map (fun e => if e.pageIndex = i then f e else e)).find?
        (fun e => e.pageIndex == j) =
      l.find? (fun e => e.pageIndex == j) := by
  induction l with
  | nil => rfl
  | cons x xs ih =>
    rw [List.map_cons, List.find?_cons, List.find?_cons]
    by_cases hx : x.pageIndex = i
    · rw [if_pos hx]
      have h1 : ((f x).pageIndex == j) = false := by
        rw [beq_eq_false_iff_ne, hf, hx]
        exact fun h => hne h.symm
      have h2 : (x.pageIndex == j) = false := by
        rw [beq_eq_false_iff_ne, hx]
        exact fun h => hne h.symm
      rw [h1, h2]
      exact ih
    · rw [if_neg hx]
      cases hxj : (x.pageIndex == j) with
      | true => rfl
      | false => exact ih

/-- An index-preserving rewrite of the entry with page index `i`, observed
at index `i` itself. -/
theorem find?_map_update_self (l : List Entry) (i : Nat) (f : Entry → Entry)
    (hf : ∀ x, (f x).pageIndex = x.pageIndex) :
    (l.map (fun e => if e.pageIndex = i then f e else e)).find?
        (fun e => e.pageIndex == i) =
      (l.find? (fun e => e.pageIndex == i)).map f := by
  induction l with
  | nil => rfl
  | cons x xs ih =>
    rw [List.map_cons, List.find?_cons, List.find?_cons]
    by_cases hx : x.pageIndex = i
    · rw [if_pos hx]
      have h1 : ((f x).pageIndex == i) = true := by
        rw [beq_iff_eq, hf]
        exact hx
      have h2 : (x.pageIndex == i) = true := beq_iff_eq.mpr hx
      rw [h1, h2]
      rfl
    · rw [if_neg hx]
      have h2 : (x.pageIndex == i) = false := beq_eq_false_iff_ne.mpr hx
      rw [h2]
      exact ih

/-- If no entry carries index `i`, rewriting at `i` is the identity. -/
theorem map_update_eq_self (l : List Entry) (i : Nat) (f : Entry → Entry)
    (h : ∀ e ∈ l, e.pageIndex ≠ i) :
    l.map (fun e => if e.pageIndex = i then f e else e) = l := by
  induction l with
  | nil => rfl
  | cons x xs ih =>
    rw [List.map_cons, if_neg (h x (List.mem_cons_self x xs)),
      ih (fun e he => h e (List.mem_cons_of_mem x he))]

namespace TextureStreamManager

theorem findEntry_setEntry_ne (s : TextureStreamManager) (i j : Nat)
    (f : Entry → Entry) (hf : ∀ x, (f x).pageIndex = x.pageIndex) (hne : j ≠ i) :
    (s.setEntry i f).findEntry j = s.findEntry j :=
  find?_map_update_ne s.entries i j f hf hne

theorem findEntry_setEntry_self (s : TextureStreamManager) (i : Nat)
    (f : Entry → Entry) (hf : ∀ x, (f x).pageIndex = x.pageIndex) :
    (s.setEntry i f).findEntry i = (s.findEntry i).map f :=
  find?_map_update_self s.entries i f hf

theorem findEntry_eq_of_mem (s : TextureStreamManager) (e : Entry)
    (hnd : (s.entries.map Entry.pageIndex).Nodup) (he : e ∈ s.entries) :
    s.findEntry e.pageIndex = some e :=
  find?_entry_eq_of_mem s.entries e hnd he

end TextureStreamManager


/-! ### Eviction lemmas -/

namespace TextureStreamManager

theorem evictWalk_nil (s : TextureStreamManager) (now : Nat) :
    s.evictWalk [] now = s := rfl

theorem evictWalk_cons (s : TextureStreamManager) (c : Entry × ℚ)
    (rest : List (Entry × ℚ)) (now : Nat) :
    s.evictWalk (c :: rest) now =
      if s.memoryManager.shouldEvict then
        (s.evictOne c.1.pageIndex now).evictWalk rest now
      else s := rfl

theorem evictOne_entries_none (s : TextureStreamManager) (i : Nat) (now : Nat)
    (hc : s.findEntry i = none) : (s.evictOne i now).entries = s.entries := by
  simp [evictOne, hc]

theorem evictOne_entries_some (s : TextureStreamManager) (i : Nat) (now : Nat)
    (cur : Entry) (hc : s.findEntry i = some cur) :
    (s.evictOne i now).entries = s.entries.map (fun e => if e.pageIndex = i then
      { e with texture := none, state := .evicted, bytesEstimate := 0,
               pixelHeight := 0, pixelWidth := 0, lastUsedTs := now } else e) := by
  cases hp : cur.previewTexture with
  | none => simp [evictOne, hc, hp, setEntry]
  | some t => simp [evictOne, hc, hp, setEntry]

theorem evictOne_memoryManager_none (s : TextureStreamManager) (i : Nat) (now : Nat)
    (hc : s.findEntry i = none) : (s.evictOne i now).memoryManager = s.memoryManager := by
  simp [evictOne, hc]

theorem evictOne_memoryManager_some (s : TextureStreamManager) (i : Nat) (now : Nat)
    (cur : Entry) (hc : s.findEntry i = some cur) :
    (s.evictOne i now).memoryManager = s.memoryManager.remove (cur.bytesEstimate : Int) := by
  cases hp : cur.previewTexture with
  | none => simp [evictOne, hc, hp, setEntry]
  | some t => simp [evictOne, hc, hp, setEntry]

theorem evictOne_projs (s : TextureStreamManager) (i : Nat) (now : Nat) :
    (s.evictOne i now).pages = s.pages ∧
    (s.evictOne i now).columns = s.columns ∧
    (s.evictOne i now).loadQueue = s.loadQueue ∧
    (s.evictOne i now).activeLoads = s.activeLoads ∧
    (s.evictOne i now).maxConcurrentLoads = s.maxConcurrentLoads ∧
    (s.evictOne i now).previewQueue = s.previewQueue ∧
    (s.evictOne i now).activePreviewLoads = s.activePreviewLoads ∧
    (s.evictOne i now).maxConcurrentPreviewLoads = s.maxConcurrentPreviewLoads ∧
    (s.evictOne i now).preloadRing = s.preloadRing ∧
    (s.evictOne i now).cancelled = s.cancelled ∧
    (s.evictOne i now).pendingLoads = s.pendingLoads ∧
    (s.evictOne i now).pendingPreviews = s.pendingPreviews := by
  cases hc : s.findEntry i with
  | none => simp [evictOne, hc]
  | some cur =>
    cases hp : cur.previewTexture with
    | none => simp [evictOne, hc, hp, setEntry]
    | some t => simp [evictOne, hc, hp, setEntry]

theorem evictOne_findEntry_ne (s : TextureStreamManager) (i j : Nat) (now : Nat)
    (hne : j ≠ i) : (s.evictOne i now).findEntry j = s.findEntry j := by
  cases hc : s.findEntry i with
  | none =>
    unfold findEntry
    rw [evictOne_entries_none s i now hc]
  | some cur =>
    unfold findEntry
    rw [evictOne_entries_some s i now cur hc]
    exact find?_map_update_ne s.entries i j
      (fun e => { e with texture := none, state := .evicted, bytesEstimate := 0,
                         pixelHeight := 0, pixelWidth := 0, lastUsedTs := now })
      (fun x => rfl) hne

theorem evictOne_findEntry_self (s : TextureStreamManager) (i : Nat) (now : Nat)
    (cur : Entry) (hfind : s.findEntry i = some cur) :
    (s.evictOne i now).findEntry i =
      some { cur with texture := none, state := .evicted, bytesEstimate := 0,
                      pixelHeight := 0, pixelWidth := 0, lastUsedTs := now } := by
  unfold findEntry
  rw [evictOne_entries_some s i now cur hfind,
    find?_map_update_self s.entries i
      (fun e => { e with texture := none, state := .evicted, bytesEstimate := 0,
                         pixelHeight := 0, pixelWidth := 0, lastUsedTs := now })
      (fun x => rfl)]
  have hfind2 : s.entries.find? (fun e => e.pageIndex == i) = some cur := hfind
  rw [hfind2]
  rfl

/-- Entries with a page index outside the walked candidate list are left
untouched by the eviction walk. -/
theorem evictWalk_findEntry_notmem (l : List (Entry × ℚ)) (s : TextureStreamManager)
    (now : Nat) (j : Nat) (hj : j ∉ l.map (fun c => c.1.pageIndex)) :
    (s.evictWalk l now).findEntry j = s.findEntry j := by
  induction l generalizing s with
  | nil => rfl
  | cons c rest ih =>
    rw [List.map_cons, List.mem_cons] at hj
    push_neg at hj
    rw [evictWalk_cons]
    by_cases hev : s.memoryManager.shouldEvict
    · rw [if_pos hev, ih _ hj.2, evictOne_findEntry_ne s _ j now hj.1]
    · rw [if_neg hev]

theorem evictWalk_projs (l : List (Entry × ℚ)) (s : TextureStreamManager)
    (now : Nat) :
    (s.evictWalk l now).pages = s.pages ∧
    (s.evictWalk l now).cancelled = s.cancelled ∧
    (s.evictWalk l now).pendingLoads = s.pendingLoads ∧
    (s.evictWalk l now).loadQueue = s.loadQueue ∧
    (s.evictWalk l now).activeLoads = s.activeLoads ∧
    (s.evictWalk l now).maxConcurrentLoads = s.maxConcurrentLoads ∧
    (s.evictWalk l now).pendingPreviews = s.pendingPreviews := by
  induction l generalizing s with
  | nil => exact ⟨rfl, rfl, rfl, rfl, rfl, rfl, rfl⟩
  | cons c rest ih =>
    rw [evictWalk_cons]
    by_cases hev : s.memoryManager.shouldEvict
    · rw [if_pos hev]
      have h1 := ih (s.evictOne c.1.pageIndex now)
      have h2 := evictOne_projs s c.1.pageIndex now
      exact ⟨h1.1.trans h2.1, h1.2.1.trans h2.2.2.2.2.2.2.2.2.2.1,
        h1.2.2.1.trans h2.2.2.2.2.2.2.2.2.2.2.1, h1.2.2.2.1.trans h2.2.2.1,
        h1.2.2.2.2.1.trans h2.2.2.2.1, h1.2.2.2.2.2.1.trans h2.2.2.2.2.1,
        h1.2.2.2.2.2.2.trans h2.2.2.2.2.2.2.2.2.2.2.2⟩
    · rw [if_neg hev]
      exact ⟨rfl, rfl, rfl, rfl, rfl, rfl, rfl⟩

end TextureStreamManager

namespace TextureStreamManager

/-- Characterisation of the eviction candidate list. -/
theorem mem_evictionCandidates (s : TextureStreamManager) (pinned : List Nat)
    (centerX centerY : ℚ) (c : Entry × ℚ) :
    c ∈ s.evictionCandidates pinned centerX centerY ↔
      c.1 ∈ s.entries ∧ c.1.state = .ready ∧ ¬ c.1.pageIndex ∈ pinned ∧
      c.2 = candidateDist s c.1 centerX centerY := by
  unfold evictionCandidates
  rw [List.mem_filterMap]
  constructor
  · rintro ⟨a, ha, hg⟩
    by_cases hcond : a.state = .ready ∧ ¬ a.pageIndex ∈ pinned
    · rw [if_pos hcond] at hg
      cases hg
      exact ⟨ha, hcond.1, hcond.2, rfl⟩
    · rw [if_neg hcond] at hg
      cases hg
  · rintro ⟨h1, h2, h3, h4⟩
    refine ⟨c.1, h1, ?_⟩
    rw [if_pos ⟨h2, h3⟩]
    obtain ⟨e, d⟩ := c
    simp only at h4
    rw [h4]

/-- The candidate page indices form a sublist of the entry-table indices,
hence inherit freedom from duplicates. -/
theorem evictionCandidates_idx_sublist (s : TextureStreamManager) (pinned : List Nat)
    (centerX centerY : ℚ) :
    ((s.evictionCandidates pinned centerX centerY).map (fun c => c.1.pageIndex)).Sublist
      (s.entries.map Entry.pageIndex) := by
  unfold evictionCandidates
  induction s.entries with
  | nil => exact List.Sublist.refl _
  | cons x xs ih =>
    rw [List.filterMap_cons, List.map_cons]
    by_cases hcond : x.state = .ready ∧ ¬ x.pageIndex ∈ pinned
    · rw [if_pos hcond, List.map_cons]
      exact ih.cons₂ x.pageIndex
    · rw [if_neg hcond]
      exact ih.cons x.pageIndex

theorem evictionCandidatesSorted_perm (s : TextureStreamManager) (pinned : List Nat)
    (centerX centerY : ℚ) :
    (s.evictionCandidatesSorted pinned centerX centerY).Perm
      (s.evictionCandidates pinned centerX centerY) :=
  List.perm_insertionSort evictRel _

theorem evictionCandidatesSorted_pairwise (s : TextureStreamManager) (pinned : List Nat)
    (centerX centerY : ℚ) :
    List.Pairwise evictRel (s.evictionCandidatesSorted pinned centerX centerY) :=
  List.sorted_insertionSort evictRel _

theorem evictionCandidatesSorted_idx_nodup (s : TextureStreamManager) (pinned : List Nat)
    (centerX centerY : ℚ) (hnd : (s.entries.map Entry.pageIndex).Nodup) :
    ((s.evictionCandidatesSorted pinned centerX centerY).map
      (fun c => c.1.pageIndex)).Nodup := by
  have hperm := (evictionCandidatesSorted_perm s pinned centerX centerY).map
    (fun c => c.1.pageIndex)
  rw [hperm.nodup_iff]
  exact (evictionCandidates_idx_sublist s pinned centerX centerY).nodup hnd

end TextureStreamManager

/-- C3: an eviction pass never touches an entry that is pinned or whose
full-resolution state is anything other than `ready`: its record after
`evictIfNeeded` is exactly its record before. -/
theorem C3_eviction_only_ready_unpinned (s : TextureStreamManager)
    (pinned : List Nat) (centerX centerY : ℚ) (now : Nat) (e : Entry)
    (hnd : (s.entries.map Entry.pageIndex).Nodup) (he : e ∈ s.entries)
    (hcond : e.state ≠ .ready ∨ e.pageIndex ∈ pinned) :
    (s.evictIfNeeded pinned centerX centerY now).findEntry e.pageIndex = some e := by
  have hfind : s.findEntry e.pageIndex = some e := s.findEntry_eq_of_mem e hnd he
  unfold TextureStreamManager.evictIfNeeded
  by_cases hev : s.memoryManager.shouldEvict
  · rw [if_pos hev]
    rw [TextureStreamManager.evictWalk_findEntry_notmem _ _ _ _ ?_]
    · exact hfind
    · intro hmem
      rw [List.mem_map] at hmem
      obtain ⟨c, hc, hidx⟩ := hmem
      have hc2 := (TextureStreamManager.mem_evictionCandidates s pinned centerX centerY c).mp
        ((TextureStreamManager.evictionCandidatesSorted_perm s pinned centerX centerY).subset hc)
      have : c.1 = e := List.inj_on_of_nodup_map hnd hc2.1 he hidx
      rcases hcond with hst | hpin
      · exact hst (this ▸ hc2.2.1)
      · exact hc2.2.2.1 (this ▸ hpin)
  · rw [if_neg hev]
    exact hfind

/-- Witness for C3: a hand-built over-budget state with a pinned ready
entry for page 0 and an unpinned loading entry for page 1; neither may be
evicted, and indeed both lookups return the original records. -/
def stateTwoEntries : TextureStreamManager :=
  { pages := [⟨0, 0, 0, 0, 0⟩, ⟨1, 0, 1, 1, 0⟩], columns := 2,
    memoryManager := { policy := ⟨100, 1, 1⟩, currentBytes := 90, currentCount := 2 },
    entries :=
      [{ pageIndex := 0, texture := some 5, previewTexture := none,
         previewState := .unloaded, state := .ready,
         pixelWidth := 8, pixelHeight := 8, bytesEstimate := 50, lastUsedTs := 3 },
       { pageIndex := 1, texture := none, previewTexture := none,
         previewState := .unloaded, state := .loading,
         pixelWidth := 0, pixelHeight := 0, bytesEstimate := 0, lastUsedTs := 2 }],
    loadQueue := [], activeLoads := 1, maxConcurrentLoads := 2,
    previewQueue := [], activePreviewLoads := 0, maxConcurrentPreviewLoads := 1,
    preloadRing := 1, cancelled := false,
    pendingLoads := [1], pendingPreviews := [], scene := [], closedBitmaps := [] }

theorem C3_witness :
    (stateTwoEntries.evictIfNeeded [0] 0 0 7).findEntry 0 =
      some { pageIndex := 0, texture := some 5, previewTexture := none,
             previewState := .unloaded, state := .ready,
             pixelWidth := 8, pixelHeight := 8, bytesEstimate := 50, lastUsedTs := 3 } ∧
    (stateTwoEntries.evictIfNeeded [0] 0 0 7).findEntry 1 =
      some { pageIndex := 1, texture := none, previewTexture := none,
             previewState := .unloaded, state := .loading,
             pixelWidth := 0, pixelHeight := 0, bytesEstimate := 0, lastUsedTs := 2 } :=
  ⟨C3_eviction_only_ready_unpinned stateTwoEntries [0] 0 0 7
      { pageIndex := 0, texture := some 5, previewTexture := none,
        previewState := .unloaded, state := .ready,
        pixelWidth := 8, pixelHeight := 8, bytesEstimate := 50, lastUsedTs := 3 }
      (by decide) (by decide) (Or.inr (by decide)),
   C3_eviction_only_ready_unpinned stateTwoEntries [0] 0 0 7
      { pageIndex := 1, texture := none, previewTexture := none,
        previewState := .unloaded, state := .loading,
        pixelWidth := 0, pixelHeight := 0, bytesEstimate := 0, lastUsedTs := 2 }
      (by decide) (by decide) (Or.inl (by decide))⟩


/-- In a pairwise-ordered list with duplicate-free keys, an element that
the order forbids from coming after another comes strictly before it. -/
theorem pairwise_indexOf_lt {α β : Type*} [DecidableEq β] {R : α → α → Prop}
    (f : α → β) {L : List α} (hpw : List.Pairwise R L)
    (hnd : (L.map f).Nodup) {x y : α} (hx : x ∈ L) (hy : y ∈ L)
    (hfne : f x ≠ f y) (hnR : ¬ R y x) :
    (L.map f).indexOf (f x) < (L.map f).indexOf (f y) := by
  induction L with
  | nil => exact absurd hx (List.not_mem_nil x)
  | cons a rest ih =>
    rw [List.map_cons, List.nodup_cons] at hnd
    rw [List.pairwise_cons] at hpw
    rw [List.map_cons, List.indexOf_cons, List.indexOf_cons]
    rcases List.mem_cons.mp hx with rfl | hx2
    · rw [beq_self_eq_true, beq_eq_false_iff_ne.mpr hfne]
      simp
    · rcases List.mem_cons.mp hy with rfl | hy2
      · exact absurd (hpw.1 x hx2) hnR
      · have hax : (f a == f x) = false := by
          rw [beq_eq_false_iff_ne]
          intro h
          exact hnd.1 (h ▸ List.mem_map_of_mem f hx2)
        have hay : (f a == f y) = false := by
          rw [beq_eq_false_iff_ne]
          intro h
          exact hnd.1 (h ▸ List.mem_map_of_mem f hy2)
        rw [hax, hay]
        simp only [Bool.cond_false]
        have := ih hpw.2 hnd.2 hx2 hy2
        omega

namespace TextureStreamManager

/-- The eviction walk visits the sorted candidates front to back and stops
for good once the budget clears, so if a later candidate got evicted,
every earlier one was evicted too. -/
theorem evictWalk_evicted_mono (l : List (Entry × ℚ)) (s : TextureStreamManager)
    (now : Nat)
    (hndl : (l.map (fun c => c.1.pageIndex)).Nodup)
    (hlive : ∀ c ∈ l, ∃ e, s.findEntry c.1.pageIndex = some e ∧ e.state = .ready)
    (a b : Entry × ℚ) (ha : a ∈ l) (hb : b ∈ l)
    (hidx : (l.map (fun c => c.1.pageIndex)).indexOf a.1.pageIndex <
      (l.map (fun c => c.1.pageIndex)).indexOf b.1.pageIndex)
    (hBev : ∃ e, (s.evictWalk l now).findEntry b.1.pageIndex = some e ∧
      e.state = .evicted) :
    ∃ e, (s.evictWalk l now).findEntry a.1.pageIndex = some e ∧
      e.state = .evicted := by
  induction l generalizing s with
  | nil => exact absurd ha (List.not_mem_nil a)
  | cons c rest ih =>
    rw [List.map_cons, List.nodup_cons] at hndl
    rw [evictWalk_cons] at hBev ⊢
    by_cases hev : s.memoryManager.shouldEvict
    · rw [if_pos hev] at hBev ⊢
      by_cases hfa : c.1.pageIndex = a.1.pageIndex
      · obtain ⟨ec, hfc, hrc⟩ := hlive c (List.mem_cons_self c rest)
        refine ⟨{ ec with texture := none, state := .evicted, bytesEstimate := 0,
                          pixelHeight := 0, pixelWidth := 0, lastUsedTs := now }, ?_, rfl⟩
        rw [← hfa,
          evictWalk_findEntry_notmem rest _ now c.1.pageIndex hndl.1]
        exact evictOne_findEntry_self s c.1.pageIndex now ec hfc
      · by_cases hfb : c.1.pageIndex = b.1.pageIndex
        · exfalso
          rw [List.map_cons, List.indexOf_cons, List.indexOf_cons,
            beq_eq_false_iff_ne.mpr hfa, beq_iff_eq.mpr hfb] at hidx
          simp at hidx
        · have ha2 : a ∈ rest := by
            rcases List.mem_cons.mp ha with rfl | h
            · exact absurd rfl hfa
            · exact h
          have hb2 : b ∈ rest := by
            rcases List.mem_cons.mp hb with rfl | h
            · exact absurd rfl hfb
            · exact h
          have hidx2 : (rest.map (fun c => c.1.pageIndex)).indexOf a.1.pageIndex <
              (rest.map (fun c => c.1.pageIndex)).indexOf b.1.pageIndex := by
            rw [List.map_cons, List.indexOf_cons, List.indexOf_cons,
              beq_eq_false_iff_ne.mpr hfa, beq_eq_false_iff_ne.mpr hfb] at hidx
            simp only [Bool.cond_false] at hidx
            omega
          refine ih (s.evictOne c.1.pageIndex now) hndl.2 ?_ ha2 hb2 hidx2 hBev
          intro d hd
          obtain ⟨e, hfd, hrd⟩ := hlive d (List.mem_cons_of_mem c hd)
          have hne : d.1.pageIndex ≠ c.1.pageIndex := by
            intro hcontra
            exact hndl.1 (hcontra ▸ List.mem_map_of_mem (fun x => x.1.pageIndex) hd)
          exact ⟨e, (evictOne_findEntry_ne s c.1.pageIndex d.1.pageIndex now hne).trans hfd,
            hrd⟩
    · rw [if_neg hev] at hBev
      exfalso
      obtain ⟨e, hfe, hee⟩ := hBev
      obtain ⟨e2, hfe2, hre2⟩ := hlive b hb
      rw [hfe] at hfe2
      cases hfe2
      rw [hee] at hre2
      cases hre2

end TextureStreamManager

/-- C2: eviction order is deterministic.  In the sorted candidate list
that `evictIfNeeded` walks (distance descending, `lastUsedTs` ascending on
ties), of two ready non-pinned entries at the same distance from the
reference point the one with the smaller `lastUsedTs` occupies a strictly
earlier position; consequently whenever the walk evicted the more recently
used one, it had already evicted the older one. -/
theorem C2_eviction_order (s : TextureStreamManager) (pinned : List Nat)
    (centerX centerY : ℚ) (now : Nat) (A B : Entry)
    (hnd : (s.entries.map Entry.pageIndex).Nodup)
    (hA : A ∈ s.entries) (hB : B ∈ s.entries)
    (hAr : A.state = .ready) (hBr : B.state = .ready)
    (hAp : ¬ A.pageIndex ∈ pinned) (hBp : ¬ B.pageIndex ∈ pinned)
    (hdist : TextureStreamManager.candidateDist s A centerX centerY =
      TextureStreamManager.candidateDist s B centerX centerY)
    (hts : A.lastUsedTs < B.lastUsedTs) :
    ((s.evictionCandidatesSorted pinned centerX centerY).map
        (fun c => c.1.pageIndex)).indexOf A.pageIndex <
      ((s.evictionCandidatesSorted pinned centerX centerY).map
        (fun c => c.1.pageIndex)).indexOf B.pageIndex ∧
    ((∃ e, (s.evictIfNeeded pinned centerX centerY now).findEntry B.pageIndex = some e ∧
        e.state = .evicted) →
      ∃ e, (s.evictIfNeeded pinned centerX centerY now).findEntry A.pageIndex = some e ∧
        e.state = .evicted) := by
  have hABne : A ≠ B := by
    intro h
    rw [h] at hts
    exact lt_irrefl _ hts
  have hidxne : A.pageIndex ≠ B.pageIndex := fun h =>
    hABne (List.inj_on_of_nodup_map hnd hA hB h)
  have hAc : (A, TextureStreamManager.candidateDist s A centerX centerY) ∈
      s.evictionCandidates pinned centerX centerY :=
    (TextureStreamManager.mem_evictionCandidates s pinned centerX centerY _).mpr
      ⟨hA, hAr, hAp, rfl⟩
  have hBc : (B, TextureStreamManager.candidateDist s B centerX centerY) ∈
      s.evictionCandidates pinned centerX centerY :=
    (TextureStreamManager.mem_evictionCandidates s pinned centerX centerY _).mpr
      ⟨hB, hBr, hBp, rfl⟩
  have hperm := TextureStreamManager.evictionCandidatesSorted_perm s pinned centerX centerY
  have hAL : (A, TextureStreamManager.candidateDist s A centerX centerY) ∈
      s.evictionCandidatesSorted pinned centerX centerY := hperm.mem_iff.mpr hAc
  have hBL : (B, TextureStreamManager.candidateDist s B centerX centerY) ∈
      s.evictionCandidatesSorted pinned centerX centerY := hperm.mem_iff.mpr hBc
  have hndl := TextureStreamManager.evictionCandidatesSorted_idx_nodup
    s pinned centerX centerY hnd
  have hnR : ¬ TextureStreamManager.evictRel
      (B, TextureStreamManager.candidateDist s B centerX centerY)
      (A, TextureStreamManager.candidateDist s A centerX centerY) := by
    unfold TextureStreamManager.evictRel
    simp only
    rintro (hlt | ⟨heq, hle⟩)
    · rw [hdist] at hlt
      exact lt_irrefl _ hlt
    · omega
  have horder := pairwise_indexOf_lt (fun c : Entry × ℚ => c.1.pageIndex)
    (TextureStreamManager.evictionCandidatesSorted_pairwise s pinned centerX centerY)
    hndl hAL hBL hidxne hnR
  refine ⟨horder, ?_⟩
  intro hBev
  unfold TextureStreamManager.evictIfNeeded at hBev ⊢
  by_cases hev : s.memoryManager.shouldEvict
  · rw [if_pos hev] at hBev ⊢
    have hlive : ∀ c ∈ s.evictionCandidatesSorted pinned centerX centerY,
        ∃ e, s.findEntry c.1.pageIndex = some e ∧ e.state = .ready := by
      intro c hc
      have hcc := (TextureStreamManager.mem_evictionCandidates s pinned centerX centerY c).mp
        (hperm.subset hc)
      exact ⟨c.1, s.findEntry_eq_of_mem c.1 hnd hcc.1, hcc.2.1⟩
    exact TextureStreamManager.evictWalk_evicted_mono _ s now hndl hlive
      _ _ hAL hBL horder hBev
  · rw [if_neg hev] at hBev
    exfalso
    obtain ⟨e, hfe, hee⟩ := hBev
    rw [s.findEntry_eq_of_mem B hnd hB] at hfe
    cases hfe
    rw [hBr] at hee
    cases hee

/-- Witness fixture for C2: a more recently used ready entry for page 0. -/
def entryP0 : Entry :=
  { pageIndex := 0, texture := some 5, previewTexture := none,
    previewState := .unloaded, state := .ready,
    pixelWidth := 8, pixelHeight := 8, bytesEstimate := 40, lastUsedTs := 9 }

/-- Witness fixture for C2: an older ready entry for page 1 at the same
world position. -/
def entryP1 : Entry :=
  { pageIndex := 1, texture := some 6, previewTexture := none,
    previewState := .unloaded, state := .ready,
    pixelWidth := 8, pixelHeight := 8, bytesEstimate := 40, lastUsedTs := 4 }

/-- Witness fixture for C2: both pages resident and over budget, both at
the reference point (equal distances). -/
def stateTwoReady : TextureStreamManager :=
  { pages := [⟨0, 0, 0, 0, 0⟩, ⟨1, 0, 1, 0, 0⟩], columns := 2,
    memoryManager := { policy := ⟨100, 1, 1⟩, currentBytes := 80, currentCount := 2 },
    entries := [entryP0, entryP1],
    loadQueue := [], activeLoads := 0, maxConcurrentLoads := 2,
    previewQueue := [], activePreviewLoads := 0, maxConcurrentPreviewLoads := 1,
    preloadRing := 1, cancelled := false, pendingLoads := [], pendingPreviews := [],
    scene := [], closedBitmaps := [] }

theorem C2_witness :
    ((stateTwoReady.evictionCandidatesSorted [] 0 0).map
        (fun c => c.1.pageIndex)).indexOf entryP1.pageIndex <
      ((stateTwoReady.evictionCandidatesSorted [] 0 0).map
        (fun c => c.1.pageIndex)).indexOf entryP0.pageIndex ∧
    ((∃ e, (stateTwoReady.evictIfNeeded [] 0 0 11).findEntry entryP0.pageIndex = some e ∧
        e.state = .evicted) →
      ∃ e, (stateTwoReady.evictIfNeeded [] 0 0 11).findEntry entryP1.pageIndex = some e ∧
        e.state = .evicted) :=
  C2_eviction_order stateTwoReady [] 0 0 11 entryP1 entryP0 (by decide)
    (by decide) (by decide) rfl rfl (by decide) (by decide) rfl (by decide)

namespace TextureStreamManager

/-- After the eviction walk, either the budget condition has cleared or
every `ready` entry is pinned (the candidates covered all unpinned ready
entries and each walked candidate was evicted). -/
theorem evictWalk_post (l : List (Entry × ℚ)) (s : TextureStreamManager)
    (now : Nat) (pinned : List Nat)
    (hndl : (l.map (fun c => c.1.pageIndex)).Nodup)
    (hlive : ∀ c ∈ l, ∃ e, s.findEntry c.1.pageIndex = some e ∧ e.state = .ready)
    (hcover : ∀ e ∈ s.entries, e.state = .ready →
      e.pageIndex ∈ pinned ∨ ∃ c ∈ l, c.1.pageIndex = e.pageIndex) :
    (s.evictWalk l now).memoryManager.shouldEvict = false ∨
      ∀ e ∈ (s.evictWalk l now).entries, e.state = .ready → e.pageIndex ∈ pinned := by
  induction l generalizing s with
  | nil =>
    right
    intro e he hr
    rcases hcover e he hr with h | ⟨c, hc, -⟩
    · exact h
    · exact absurd hc (List.not_mem_nil c)
  | cons c rest ih =>
    rw [List.map_cons, List.nodup_cons] at hndl
    rw [evictWalk_cons]
    by_cases hev : s.memoryManager.shouldEvict
    · rw [if_pos hev]
      obtain ⟨ec, hfc, hrc⟩ := hlive c (List.mem_cons_self c rest)
      refine ih (s.evictOne c.1.pageIndex now) hndl.2 ?_ ?_
      · intro d hd
        obtain ⟨e, hfd, hrd⟩ := hlive d (List.mem_cons_of_mem c hd)
        have hne : d.1.pageIndex ≠ c.1.pageIndex := by
          intro hcontra
          exact hndl.1 (hcontra ▸ List.mem_map_of_mem (fun x => x.1.pageIndex) hd)
        exact ⟨e, (evictOne_findEntry_ne s c.1.pageIndex d.1.pageIndex now hne).trans hfd,
          hrd⟩
      · intro e2 he2 hr2
        rw [evictOne_entries_some s c.1.pageIndex now ec hfc] at he2
        rw [List.mem_map] at he2
        obtain ⟨e0, he0, heq⟩ := he2
        by_cases hidx : e0.pageIndex = c.1.pageIndex
        · rw [if_pos hidx] at heq
          rw [← heq] at hr2
          cases hr2
        · rw [if_neg hidx] at heq
          subst heq
          rcases hcover e0 he0 hr2 with h | ⟨c2, hc2, hc2idx⟩
          · exact Or.inl h
          · rcases List.mem_cons.mp hc2 with rfl | hc2rest
            · exact absurd (hc2idx.symm) hidx
            · exact Or.inr ⟨c2, hc2rest, hc2idx⟩
    · rw [if_neg hev]
      left
      exact Bool.not_eq_true _ ▸ eq_false_of_ne_true hev

/-- After `evictIfNeeded` either the budget condition has cleared or every
`ready` entry is pinned. -/
theorem evictIfNeeded_post (s : TextureStreamManager) (pinned : List Nat)
    (centerX centerY : ℚ) (now : Nat)
    (hnd : (s.entries.map Entry.pageIndex).Nodup) :
    (s.evictIfNeeded pinned centerX centerY now).memoryManager.shouldEvict = false ∨
      ∀ e ∈ (s.evictIfNeeded pinned centerX centerY now).entries, e.state = .ready →
        e.pageIndex ∈ pinned := by
  unfold evictIfNeeded
  by_cases hev : s.memoryManager.shouldEvict
  · rw [if_pos hev]
    have hperm := evictionCandidatesSorted_perm s pinned centerX centerY
    refine evictWalk_post _ s now pinned
      (evictionCandidatesSorted_idx_nodup s pinned centerX centerY hnd) ?_ ?_
    · intro c hc
      have hcc := (mem_evictionCandidates s pinned centerX centerY c).mp (hperm.subset hc)
      exact ⟨c.1, s.findEntry_eq_of_mem c.1 hnd hcc.1, hcc.2.1⟩
    · intro e he hr
      by_cases hpin : e.pageIndex ∈ pinned
      · exact Or.inl hpin
      · refine Or.inr ⟨(e, candidateDist s e centerX centerY), ?_, rfl⟩
        rw [hperm.mem_iff]
        exact (mem_evictionCandidates s pinned centerX centerY _).mpr ⟨he, hr, hpin, rfl⟩
  · rw [if_neg hev]
    left
    exact Bool.not_eq_true _ ▸ eq_false_of_ne_true hev

theorem enqueue_entries (s : TextureStreamManager) (i : Nat) :
    (s.enqueue i).entries = s.entries := by
  unfold enqueue
  split <;> rfl

theorem enqueue_projs (s : TextureStreamManager) (i : Nat) :
    (s.enqueue i).memoryManager = s.memoryManager ∧
    (s.enqueue i).pages = s.pages ∧
    (s.enqueue i).cancelled = s.cancelled := by
  unfold enqueue
  split <;> exact ⟨rfl, rfl, rfl⟩

/-- The visibility loop leaves the tracker, page list and entry indices
untouched (it only refreshes timestamps and extends the queue). -/
theorem targetPhase_invariants (s : TextureStreamManager) (t : List Nat) (now : Nat) :
    (s.targetPhase t now).memoryManager = s.memoryManager ∧
    (s.targetPhase t now).entries.map Entry.pageIndex = s.entries.map Entry.pageIndex ∧
    (s.targetPhase t now).pages = s.pages ∧
    (s.targetPhase t now).cancelled = s.cancelled := by
  unfold targetPhase
  induction t generalizing s with
  | nil => exact ⟨rfl, rfl, rfl, rfl⟩
  | cons i rest ih =>
    rw [List.foldl_cons]
    split
    · exact ih s
    · next e hfe =>
      split
      · have hstep := ih (s.setEntry i fun e1 => { e1 with lastUsedTs := now })
        refine ⟨hstep.1, ?_, hstep.2.2⟩
        refine hstep.2.1.trans ?_
        show (s.entries.map _).map Entry.pageIndex = _
        rw [List.map_map]
        refine List.map_congr_left ?_
        intro e1 _
        by_cases h1 : e1.pageIndex = i
        · simp [h1]
        · simp [h1]
      · split
        · exact ih s
        · have hstep := ih (s.enqueue i)
          rw [enqueue_entries] at hstep
          exact ⟨hstep.1.trans (enqueue_projs s i).1, hstep.2.1,
            hstep.2.2.1.trans (enqueue_projs s i).2.1,
            hstep.2.2.2.trans (enqueue_projs s i).2.2⟩

theorem loadPageTextureStart_projs (s : TextureStreamManager) (i : Nat) :
    (s.loadPageTextureStart i).memoryManager = s.memoryManager := by
  unfold loadPageTextureStart
  cases s.findEntry i <;> rfl

theorem loadPageTextureStart_ready (s : TextureStreamManager) (i : Nat) (e1 : Entry)
    (he1 : e1 ∈ (s.loadPageTextureStart i).entries) (hr : e1.state = .ready) :
    ∃ e ∈ s.entries, e.pageIndex = e1.pageIndex ∧ e.state = .ready := by
  unfold loadPageTextureStart at he1
  split at he1
  · exact ⟨e1, he1, rfl, hr⟩
  · simp only [setEntry] at he1
    rw [List.mem_map] at he1
    obtain ⟨e2, he2, heq⟩ := he1
    by_cases hidx : e2.pageIndex = i
    · rw [if_pos hidx] at heq
      rw [← heq] at hr
      cases hr
    · rw [if_neg hidx] at heq
      subst heq
      exact ⟨e2, he2, rfl, hr⟩

theorem pumpGo_mm (l : List Nat) (s : TextureStreamManager) :
    (pumpGo l s).memoryManager = s.memoryManager := by
  induction l generalizing s with
  | nil => rfl
  | cons i rest ih =>
    show (if s.activeLoads < s.maxConcurrentLoads then _ else s).memoryManager = _
    split
    · split
      · exact ih _
      · split
        · exact ih _
        · exact (ih _).trans (loadPageTextureStart_projs _ i)
    · rfl

theorem pumpGo_ready (l : List Nat) (s : TextureStreamManager) (e1 : Entry)
    (he1 : e1 ∈ (pumpGo l s).entries) (hr : e1.state = .ready) :
    ∃ e ∈ s.entries, e.pageIndex = e1.pageIndex ∧ e.state = .ready := by
  induction l generalizing s with
  | nil => exact ⟨e1, he1, rfl, hr⟩
  | cons i rest ih =>
    rw [show pumpGo (i :: rest) s =
      if s.activeLoads < s.maxConcurrentLoads then
        match s.findEntry i with
        | none => pumpGo rest { s with loadQueue := rest }
        | some e =>
          if e.state = .ready ∨ e.state = .loading then
            pumpGo rest { s with loadQueue := rest }
          else pumpGo rest (loadPageTextureStart { s with loadQueue := rest } i)
      else s from rfl] at he1
    split at he1
    · split at he1
      · exact ih { s with loadQueue := rest } he1
      · split at he1
        · exact ih { s with loadQueue := rest } he1
        · obtain ⟨e2, he2, hidx2, hr2⟩ := ih _ he1
          obtain ⟨e3, he3, hidx3, hr3⟩ :=
            loadPageTextureStart_ready _ i e2 he2 hr2
          exact ⟨e3, he3, hidx3.trans hidx2, hr3⟩
    · exact ⟨e1, he1, rfl, hr⟩

theorem pumpQueue_mm (s : TextureStreamManager) :
    (s.pumpQueue).memoryManager = s.memoryManager :=
  pumpGo_mm s.loadQueue s

theorem pumpQueue_ready (s : TextureStreamManager) (e1 : Entry)
    (he1 : e1 ∈ (s.pumpQueue).entries) (hr : e1.state = .ready) :
    ∃ e ∈ s.entries, e.pageIndex = e1.pageIndex ∧ e.state = .ready :=
  pumpGo_ready s.loadQueue s e1 he1 hr

end TextureStreamManager

/-- C1 (amended): after `updateVisibleSet` on a manager that has not been
disposed, either `overBudget()` is false, or every remaining `ready` entry
lies inside the expanded (pinned) target set — equivalently, every ready
non-pinned entry has been evicted.  The eviction walk is a structural
recursion over the finite candidate list, so termination is intrinsic. -/
theorem C1_eviction_complete (s : TextureStreamManager) (visibleSet : List Nat)
    (centerX centerY : ℚ) (now : Nat)
    (hc : s.cancelled = false)
    (hnd : (s.entries.map Entry.pageIndex).Nodup) :
    (s.updateVisibleSet visibleSet centerX centerY now).memoryManager.shouldEvict = false ∨
      ∀ e ∈ (s.updateVisibleSet visibleSet centerX centerY now).entries, e.state = .ready →
        e.pageIndex ∈ expandVisibleIndicesWithRing visibleSet s.pages s.columns s.preloadRing := by
  unfold TextureStreamManager.updateVisibleSet
  rw [hc]
  simp only [Bool.false_eq_true, if_false]
  have hnd1 : (((s.targetPhase (expandVisibleIndicesWithRing visibleSet s.pages s.columns
      s.preloadRing) now)).entries.map Entry.pageIndex).Nodup :=
    (TextureStreamManager.targetPhase_invariants s _ now).2.1.symm ▸ hnd
  rcases TextureStreamManager.evictIfNeeded_post
      (s.targetPhase (expandVisibleIndicesWithRing visibleSet s.pages s.columns s.preloadRing) now)
      (expandVisibleIndicesWithRing visibleSet s.pages s.columns s.preloadRing)
      centerX centerY now hnd1 with h | h
  · left
    rw [TextureStreamManager.pumpQueue_mm]
    exact h
  · right
    intro e he hr
    obtain ⟨e2, he2, hidx2, hr2⟩ := TextureStreamManager.pumpQueue_ready _ e he hr
    rw [← hidx2]
    exact h e2 he2 hr2

/-- A concrete reachable state falsifying C1 as stated: one page, zero
byte budget and entry cap `-1`, a full load completed (40 bytes, `ready`),
then `dispose()`.  The tracker still counts the bytes, the entry is still
`ready`, and the cancelled flag makes `updateVisibleSet` return without
evicting anything. -/
def stateDisposedReady : TextureStreamManager :=
  (TextureStreamManager.init [⟨0, 0, 0, 0, 0⟩] 1 ⟨0, -1, 1⟩).run
    [Op.update [0] 0 0 1, Op.finishLoad 0 (some ⟨7, 10, 10, 40, false⟩) 2, Op.dispose]

/-- C1 (counterexample): calling `updateVisibleSet` on the disposed state
returns with `overBudget()` still true while a `ready` entry outside the
(empty) pinned target set has not been evicted — the claim's disjunction
fails because the cancelled early-return skips eviction entirely. -/
theorem C1_counterexample :
    (stateDisposedReady.updateVisibleSet [] 0 0 9).memoryManager.shouldEvict = true ∧
    ∃ e ∈ (stateDisposedReady.updateVisibleSet [] 0 0 9).entries,
      e.state = .ready ∧
      ¬ e.pageIndex ∈ expandVisibleIndicesWithRing [] stateDisposedReady.pages
          stateDisposedReady.columns stateDisposedReady.preloadRing := by
  decide

/-- Witness for C1 (amended) on a live (non-cancelled) manager state. -/
theorem C1_witness :
    (stateTwoReady.updateVisibleSet [0] 0 0 12).memoryManager.shouldEvict = false ∨
      ∀ e ∈ (stateTwoReady.updateVisibleSet [0] 0 0 12).entries, e.state = .ready →
        e.pageIndex ∈ expandVisibleIndicesWithRing [0] stateTwoReady.pages
          stateTwoReady.columns stateTwoReady.preloadRing :=
  C1_eviction_complete stateTwoReady [0] 0 0 12 rfl (by decide)

/-! ### Budget accounting invariant (claims C4 and C5) -/

/-- Byte contribution of one entry to the tracker: counted only while the
full-resolution tier is `ready`. -/
def entryBytes (e : Entry) : Int :=
  if e.state = .ready then (e.bytesEstimate : Int) else 0

/-- Count contribution of one entry to the tracker. -/
def entryCount (e : Entry) : Int :=
  if e.state = .ready then 1 else 0

/-- Total bytes of `ready` entries. -/
def readyBytes (l : List Entry) : Int :=
  (l.map entryBytes).sum

/-- Number of `ready` entries. -/
def readyCount (l : List Entry) : Int :=
  (l.map entryCount).sum

theorem entryBytes_nonneg (e : Entry) : 0 ≤ entryBytes e := by
  unfold entryBytes
  split
  · exact Int.natCast_nonneg _
  · exact le_refl 0

theorem entryCount_nonneg (e : Entry) : 0 ≤ entryCount e := by
  unfold entryCount
  split
  · exact zero_le_one
  · exact le_refl 0

/-- Rewriting the unique entry with index `i` shifts a per-entry sum by
exactly that entry's contribution change. -/
theorem sum_map_update (g : Entry → Int) (l : List Entry) (i : Nat)
    (f : Entry → Entry) (hnd : (l.map Entry.pageIndex).Nodup) (cur : Entry)
    (hcur : cur ∈ l) (hidx : cur.pageIndex = i) :
    ((l.map (fun e => if e.pageIndex = i then f e else e)).map g).sum =
      (l.map g).sum - g cur + g (f cur) := by
  induction l with
  | nil => exact absurd hcur (List.not_mem_nil cur)
  | cons x xs ih =>
    rw [List.map_cons, List.nodup_cons] at hnd
    rcases List.mem_cons.mp hcur with rfl | hmem
    · rw [List.map_cons, if_pos hidx, List.map_cons, List.sum_cons, List.map_cons,
        List.sum_cons]
      rw [map_update_eq_self xs i f ?hnone]
      · ring
      · intro e he hei
        apply hnd.1
        have heq : e.pageIndex = cur.pageIndex := hei.trans hidx.symm
        rw [← heq]
        exact List.mem_map_of_mem Entry.pageIndex he
    · have hx : x.pageIndex ≠ i := by
        intro hxi
        exact hnd.1 ((hxi.trans hidx.symm) ▸ List.mem_map_of_mem Entry.pageIndex hmem)
      rw [List.map_cons, if_neg hx, List.map_cons, List.sum_cons, List.map_cons,
        List.sum_cons, ih hnd.2 hmem]
      ring

/-- A single ready entry's contribution is bounded by the total. -/
theorem sum_map_le (g : Entry → Int) (l : List Entry) (cur : Entry)
    (hpos : ∀ e : Entry, 0 ≤ g e) (hcur : cur ∈ l) :
    g cur ≤ (l.map g).sum := by
  refine List.single_le_sum ?_ (g cur) (List.mem_map_of_mem g hcur)
  intro x hx
  rw [List.mem_map] at hx
  obtain ⟨e, -, rfl⟩ := hx
  exact hpos e

/-- Lookup commutes with an index-preserving rewrite of every entry. -/
theorem find?_map_global (l : List Entry) (g : Entry → Entry)
    (hg : ∀ x, (g x).pageIndex = x.pageIndex) (j : Nat) :
    (l.map g).find? (fun e => e.pageIndex == j) =
      (l.find? (fun e => e.pageIndex == j)).map g := by
  induction l with
  | nil => rfl
  | cons x xs ih =>
    rw [List.map_cons, List.find?_cons, List.find?_cons]
    have hgx : ((g x).pageIndex == j) = (x.pageIndex == j) := by rw [hg]
    rw [hgx]
    cases hx : (x.pageIndex == j) with
    | true => rfl
    | false => exact ih

/-- An index-preserving rewrite of one entry leaves the index list alone. -/
theorem map_update_idx (l : List Entry) (i : Nat) (f : Entry → Entry)
    (hf : ∀ x, (f x).pageIndex = x.pageIndex) :
    (l.map (fun e => if e.pageIndex = i then f e else e)).map Entry.pageIndex =
      l.map Entry.pageIndex := by
  rw [List.map_map]
  refine List.map_congr_left ?_
  intro e _
  by_cases h : e.pageIndex = i
  · simp [h, hf]
  · simp [h]

/-- The well-formedness invariant of a streaming-cache state: unique page
indices; each tier's suspended tasks are distinct and back a `loading`
entry; the tracker counts exactly the `ready` entries and their byte
estimates; and on a live (non-disposed) cache every `ready` entry holds a
resource. -/
structure WF (s : TextureStreamManager) : Prop where
  nodupIdx : (s.entries.map Entry.pageIndex).Nodup
  pendingNodup : s.pendingLoads.Nodup
  pendingLoading : ∀ i ∈ s.pendingLoads, ∃ e, s.findEntry i = some e ∧ e.state = .loading
  prevNodup : s.pendingPreviews.Nodup
  prevLoading : ∀ i ∈ s.pendingPreviews,
    ∃ e, s.findEntry i = some e ∧ e.previewState = .loading
  bytesAcct : s.memoryManager.currentBytes = readyBytes s.entries
  countAcct : s.memoryManager.currentCount = readyCount s.entries
  readyTexture : s.cancelled = false → ∀ e ∈ s.entries, e.state = .ready → e.texture.isSome

/-- A rewrite that does not change any entry's contribution leaves a
per-entry sum alone. -/
theorem sum_map_update_invariant (g : Entry → Int) (l : List Entry) (i : Nat)
    (f : Entry → Entry) (hg : ∀ x, g (f x) = g x) :
    ((l.map (fun e => if e.pageIndex = i then f e else e)).map g).sum =
      (l.map g).sum := by
  rw [List.map_map]
  congr 1
  refine List.map_congr_left ?_
  intro e _
  by_cases h : e.pageIndex = i
  · simp [h, hg]
  · simp [h]

namespace TextureStreamManager

/-- `setEntry` with a rewrite that can only touch `lastUsedTs` (or other
fields outside the invariant) preserves well-formedness. -/
theorem WF_setEntry_benign (s : TextureStreamManager) (i : Nat) (f : Entry → Entry)
    (hWF : WF s)
    (hidx : ∀ x, (f x).pageIndex = x.pageIndex)
    (hstate : ∀ x, (f x).state = x.state)
    (hbytes : ∀ x, (f x).bytesEstimate = x.bytesEstimate)
    (hprev : ∀ x, (f x).previewState = x.previewState)
    (htex : ∀ x, (f x).texture = x.texture) :
    WF (s.setEntry i f) := by
  refine ⟨?_, hWF.pendingNodup, ?_, hWF.prevNodup, ?_, ?_, ?_, ?_⟩
  · show ((s.entries.map fun e => if e.pageIndex = i then f e else e).map
      Entry.pageIndex).Nodup
    rw [map_update_idx s.entries i f hidx]
    exact hWF.nodupIdx
  · intro j hj
    obtain ⟨e, hf2, hl⟩ := hWF.pendingLoading j hj
    by_cases hji : j = i
    · subst hji
      rw [s.findEntry_setEntry_self j f hidx, hf2]
      exact ⟨f e, rfl, (hstate e).trans hl⟩
    · rw [s.findEntry_setEntry_ne i j f hidx hji]
      exact ⟨e, hf2, hl⟩
  · intro j hj
    obtain ⟨e, hf2, hl⟩ := hWF.prevLoading j hj
    by_cases hji : j = i
    · subst hji
      rw [s.findEntry_setEntry_self j f hidx, hf2]
      exact ⟨f e, rfl, (hprev e).trans hl⟩
    · rw [s.findEntry_setEntry_ne i j f hidx hji]
      exact ⟨e, hf2, hl⟩
  · show s.memoryManager.currentBytes = readyBytes
      (s.entries.map fun e => if e.pageIndex = i then f e else e)
    rw [hWF.bytesAcct]
    unfold readyBytes
    rw [sum_map_update_invariant entryBytes s.entries i f ?_]
    intro x
    unfold entryBytes
    rw [hstate, hbytes]
  · show s.memoryManager.currentCount = readyCount
      (s.entries.map fun e => if e.pageIndex = i then f e else e)
    rw [hWF.countAcct]
    unfold readyCount
    rw [sum_map_update_invariant entryCount s.entries i f ?_]
    intro x
    unfold entryCount
    rw [hstate]
  · intro hcanc e he hr
    have he2 : e ∈ s.entries.map (fun e1 => if e1.pageIndex = i then f e1 else e1) := he
    rw [List.mem_map] at he2
    obtain ⟨e0, he0, heq⟩ := he2
    by_cases h : e0.pageIndex = i
    · rw [if_pos h] at heq
      subst heq
      rw [htex]
      exact hWF.readyTexture hcanc e0 he0 ((hstate e0).symm.trans hr)
    · rw [if_neg h] at heq
      subst heq
      exact hWF.readyTexture hcanc e0 he0 hr

theorem WF_enqueue (s : TextureStreamManager) (i : Nat) (hWF : WF s) :
    WF (s.enqueue i) := by
  unfold enqueue
  split
  · exact hWF
  · exact ⟨hWF.nodupIdx, hWF.pendingNodup, hWF.pendingLoading, hWF.prevNodup,
      hWF.prevLoading, hWF.bytesAcct, hWF.countAcct, hWF.readyTexture⟩

theorem setEntry_idx (s : TextureStreamManager) (i : Nat) (f : Entry → Entry)
    (hf : ∀ x, (f x).pageIndex = x.pageIndex) :
    ((s.setEntry i f).entries).map Entry.pageIndex = s.entries.map Entry.pageIndex :=
  map_update_idx s.entries i f hf

theorem setEntry_readyBytes (s : TextureStreamManager) (i : Nat) (f : Entry → Entry)
    (hnd : (s.entries.map Entry.pageIndex).Nodup) (cur : Entry)
    (hmem : cur ∈ s.entries) (hidx : cur.pageIndex = i) :
    readyBytes ((s.setEntry i f).entries) =
      readyBytes s.entries - entryBytes cur + entryBytes (f cur) :=
  sum_map_update entryBytes s.entries i f hnd cur hmem hidx

theorem setEntry_readyCount (s : TextureStreamManager) (i : Nat) (f : Entry → Entry)
    (hnd : (s.entries.map Entry.pageIndex).Nodup) (cur : Entry)
    (hmem : cur ∈ s.entries) (hidx : cur.pageIndex = i) :
    readyCount ((s.setEntry i f).entries) =
      readyCount s.entries - entryCount cur + entryCount (f cur) :=
  sum_map_update entryCount s.entries i f hnd cur hmem hidx

theorem WF_loadPageTextureStart (s : TextureStreamManager) (i : Nat) (hWF : WF s)
    (hguard : ∀ e, s.findEntry i = some e → e.state ≠ .ready ∧ e.state ≠ .loading) :
    WF (s.loadPageTextureStart i) := by
  unfold loadPageTextureStart
  split
  · exact hWF
  · next e0 hfe =>
    have hguard2 := hguard e0 hfe
    have hmem0 : e0 ∈ s.entries := List.mem_of_find?_eq_some hfe
    have hidx0 : e0.pageIndex = i := by
      have h := List.find?_some hfe
      rwa [beq_iff_eq] at h
    have hnotmem : i ∉ s.pendingLoads := by
      intro hmem
      obtain ⟨e1, hf1, hl1⟩ := hWF.pendingLoading i hmem
      rw [hfe] at hf1
      cases hf1
      exact hguard2.2 hl1
    refine ⟨?_, ?_, ?_, hWF.prevNodup, ?_, ?_, ?_, ?_⟩
    · exact (setEntry_idx s i (fun e => { e with state := TexState.loading })
        (fun x => rfl)).symm ▸ hWF.nodupIdx
    · show (s.pendingLoads ++ [i]).Nodup
      rw [List.nodup_append]
      refine ⟨hWF.pendingNodup, List.nodup_singleton i, ?_⟩
      intro a ha hai
      rw [List.mem_singleton] at hai
      subst hai
      exact hnotmem ha
    · intro j hj
      rcases List.mem_append.mp hj with hj1 | hj2
      · have hji : j ≠ i := fun h => hnotmem (h ▸ hj1)
        obtain ⟨e, hf2, hl⟩ := hWF.pendingLoading j hj1
        exact ⟨e, (s.findEntry_setEntry_ne i j
          (fun e => { e with state := TexState.loading }) (fun x => rfl) hji).trans hf2, hl⟩
      · rw [List.mem_singleton] at hj2
        subst hj2
        refine ⟨{ e0 with state := TexState.loading }, ?_, rfl⟩
        refine (s.findEntry_setEntry_self j
          (fun e => { e with state := TexState.loading }) (fun x => rfl)).trans ?_
        rw [hfe]
        rfl
    · intro j hj
      obtain ⟨e, hf2, hl⟩ := hWF.prevLoading j hj
      by_cases hji : j = i
      · subst hji
        refine ⟨{ e with state := TexState.loading }, ?_, hl⟩
        refine (s.findEntry_setEntry_self j
          (fun e => { e with state := TexState.loading }) (fun x => rfl)).trans ?_
        rw [hf2]
        rfl
      · exact ⟨e, (s.findEntry_setEntry_ne i j
          (fun e => { e with state := TexState.loading }) (fun x => rfl) hji).trans hf2, hl⟩
    · have hB := setEntry_readyBytes s i (fun e => { e with state := TexState.loading })
        hWF.nodupIdx e0 hmem0 hidx0
      have h1 : entryBytes e0 = 0 := by
        unfold entryBytes
        rw [if_neg hguard2.1]
      have h2 : entryBytes { e0 with state := TexState.loading } = 0 := by
        simp [entryBytes]
      simp only [h1, h2, sub_zero, add_zero] at hB
      exact hWF.bytesAcct.trans hB.symm
    · have hC := setEntry_readyCount s i (fun e => { e with state := TexState.loading })
        hWF.nodupIdx e0 hmem0 hidx0
      have h1 : entryCount e0 = 0 := by
        unfold entryCount
        rw [if_neg hguard2.1]
      have h2 : entryCount { e0 with state := TexState.loading } = 0 := by
        simp [entryCount]
      simp only [h1, h2, sub_zero, add_zero] at hC
      exact hWF.countAcct.trans hC.symm
    · intro hcanc e he hr
      have he2 : e ∈ s.entries.map (fun e1 =>
          if e1.pageIndex = i then { e1 with state := TexState.loading } else e1) := he
      rw [List.mem_map] at he2
      obtain ⟨e1, he1, heq⟩ := he2
      by_cases h : e1.pageIndex = i
      · rw [if_pos h] at heq
        rw [← heq] at hr
        cases hr
      · rw [if_neg h] at heq
        subst heq
        exact hWF.readyTexture hcanc e1 he1 hr

/-- Well-formedness only mentions the entry table, tracker, pending task
lists and the cancelled flag; any state agreeing on those is as well-formed. -/
theorem WF_congr (t s : TextureStreamManager) (hWF : WF s)
    (he : t.entries = s.entries) (hm : t.memoryManager = s.memoryManager)
    (hp : t.pendingLoads = s.pendingLoads) (hpp : t.pendingPreviews = s.pendingPreviews)
    (hc : t.cancelled = s.cancelled) : WF t := by
  have hfind : ∀ j, t.findEntry j = s.findEntry j := by
    intro j
    unfold findEntry
    rw [he]
  refine ⟨?_, ?_, ?_, ?_, ?_, ?_, ?_, ?_⟩
  · rw [he]
    exact hWF.nodupIdx
  · rw [hp]
    exact hWF.pendingNodup
  · intro j hj
    rw [hp] at hj
    rw [hfind]
    exact hWF.pendingLoading j hj
  · rw [hpp]
    exact hWF.prevNodup
  · intro j hj
    rw [hpp] at hj
    rw [hfind]
    exact hWF.prevLoading j hj
  · rw [hm, he]
    exact hWF.bytesAcct
  · rw [hm, he]
    exact hWF.countAcct
  · intro hcanc
    rw [he]
    rw [hc] at hcanc
    exact hWF.readyTexture hcanc

theorem setEntry_readyBytes_invariant (s : TextureStreamManager) (i : Nat)
    (f : Entry → Entry) (hg : ∀ x, entryBytes (f x) = entryBytes x) :
    readyBytes ((s.setEntry i f).entries) = readyBytes s.entries :=
  sum_map_update_invariant entryBytes s.entries i f hg

theorem setEntry_readyCount_invariant (s : TextureStreamManager) (i : Nat)
    (f : Entry → Entry) (hg : ∀ x, entryCount (f x) = entryCount x) :
    readyCount ((s.setEntry i f).entries) = readyCount s.entries :=
  sum_map_update_invariant entryCount s.entries i f hg

theorem WF_loadPreviewTextureStart (s : TextureStreamManager) (i : Nat) (hWF : WF s)
    (hguard : ∀ e, s.findEntry i = some e →
      e.previewState ≠ .loading ∧ e.previewState ≠ .ready) :
    WF (s.loadPreviewTextureStart i) := by
  unfold loadPreviewTextureStart
  split
  · exact hWF
  · next e0 hfe =>
    have hguard2 := hguard e0 hfe
    have hnotmem : i ∉ s.pendingPreviews := by
      intro hmem
      obtain ⟨e1, hf1, hl1⟩ := hWF.prevLoading i hmem
      rw [hfe] at hf1
      cases hf1
      exact hguard2.1 hl1
    refine ⟨?_, hWF.pendingNodup, ?_, ?_, ?_, ?_, ?_, ?_⟩
    · exact (setEntry_idx s i (fun e => { e with previewState := TexState.loading })
        (fun x => rfl)).symm ▸ hWF.nodupIdx
    · intro j hj
      obtain ⟨e, hf2, hl⟩ := hWF.pendingLoading j hj
      by_cases hji : j = i
      · subst hji
        refine ⟨{ e with previewState := TexState.loading }, ?_, hl⟩
        refine (s.findEntry_setEntry_self j
          (fun e => { e with previewState := TexState.loading }) (fun x => rfl)).trans ?_
        rw [hf2]
        rfl
      · exact ⟨e, (s.findEntry_setEntry_ne i j
          (fun e => { e with previewState := TexState.loading }) (fun x => rfl) hji).trans hf2, hl⟩
    · show (s.pendingPreviews ++ [i]).Nodup
      rw [List.nodup_append]
      refine ⟨hWF.prevNodup, List.nodup_singleton i, ?_⟩
      intro a ha hai
      rw [List.mem_singleton] at hai
      subst hai
      exact hnotmem ha
    · intro j hj
      rcases List.mem_append.mp hj with hj1 | hj2
      · have hji : j ≠ i := fun h => hnotmem (h ▸ hj1)
        obtain ⟨e, hf2, hl⟩ := hWF.prevLoading j hj1
        exact ⟨e, (s.findEntry_setEntry_ne i j
          (fun e => { e with previewState := TexState.loading }) (fun x => rfl) hji).trans hf2, hl⟩
      · rw [List.mem_singleton] at hj2
        subst hj2
        refine ⟨{ e0 with previewState := TexState.loading }, ?_, rfl⟩
        refine (s.findEntry_setEntry_self j
          (fun e => { e with previewState := TexState.loading }) (fun x => rfl)).trans ?_
        rw [hfe]
        rfl
    · exact hWF.bytesAcct.trans (setEntry_readyBytes_invariant s i
        (fun e => { e with previewState := TexState.loading }) (fun x => rfl)).symm
    · exact hWF.countAcct.trans (setEntry_readyCount_invariant s i
        (fun e => { e with previewState := TexState.loading }) (fun x => rfl)).symm
    · intro hcanc e he hr
      have he2 : e ∈ s.entries.map (fun e1 =>
          if e1.pageIndex = i then { e1 with previewState := TexState.loading } else e1) := he
      rw [List.mem_map] at he2
      obtain ⟨e1, he1, heq⟩ := he2
      by_cases h : e1.pageIndex = i
      · rw [if_pos h] at heq
        subst heq
        exact hWF.readyTexture hcanc e1 he1 hr
      · rw [if_neg h] at heq
        subst heq
        exact hWF.readyTexture hcanc e1 he1 hr

theorem WF_pumpGo (l : List Nat) (s : TextureStreamManager) (hWF : WF s) :
    WF (pumpGo l s) := by
  induction l generalizing s with
  | nil => exact WF_congr _ s hWF rfl rfl rfl rfl rfl
  | cons i rest ih =>
    show WF (if s.activeLoads < s.maxConcurrentLoads then _ else s)
    split
    · split
      · exact ih _ (WF_congr _ s hWF rfl rfl rfl rfl rfl)
      · split
        · exact ih _ (WF_congr _ s hWF rfl rfl rfl rfl rfl)
        · next e heq hskip =>
          refine ih _ (WF_loadPageTextureStart _ i
            (WF_congr _ s hWF rfl rfl rfl rfl rfl) ?_)
          intro e2 hf2
          have hf3 : s.findEntry i = some e2 := hf2
          rw [heq] at hf3
          cases hf3
          push_neg at hskip
          exact hskip
    · exact hWF

theorem WF_pumpPreviewGo (l : List Nat) (s : TextureStreamManager) (hWF : WF s) :
    WF (pumpPreviewGo l s) := by
  induction l generalizing s with
  | nil => exact WF_congr _ s hWF rfl rfl rfl rfl rfl
  | cons i rest ih =>
    show WF (if s.activePreviewLoads < s.maxConcurrentPreviewLoads then _ else s)
    split
    · split
      · exact ih _ (WF_congr _ s hWF rfl rfl rfl rfl rfl)
      · split
        · exact ih _ (WF_congr _ s hWF rfl rfl rfl rfl rfl)
        · next e heq hskip =>
          refine ih _ (WF_loadPreviewTextureStart _ i
            (WF_congr _ s hWF rfl rfl rfl rfl rfl) ?_)
          intro e2 hf2
          have hf3 : s.findEntry i = some e2 := hf2
          rw [heq] at hf3
          cases hf3
          push_neg at hskip
          exact hskip
    · exact hWF

theorem WF_pumpQueue (s : TextureStreamManager) (hWF : WF s) : WF (s.pumpQueue) :=
  WF_pumpGo s.loadQueue s hWF

theorem WF_pumpPreviewQueue (s : TextureStreamManager) (hWF : WF s) :
    WF (s.pumpPreviewQueue) :=
  WF_pumpPreviewGo s.previewQueue s hWF

theorem WF_targetPhase (s : TextureStreamManager) (t : List Nat) (now : Nat)
    (hWF : WF s) : WF (s.targetPhase t now) := by
  unfold targetPhase
  induction t generalizing s with
  | nil => exact hWF
  | cons i rest ih =>
    rw [List.foldl_cons]
    split
    · exact ih s hWF
    · split
      · exact ih _ (WF_setEntry_benign s i _ hWF (fun x => rfl) (fun x => rfl)
          (fun x => rfl) (fun x => rfl) (fun x => rfl))
      · split
        · exact ih s hWF
        · exact ih _ (WF_enqueue s i hWF)

theorem WF_evictOne (s : TextureStreamManager) (i : Nat) (now : Nat) (hWF : WF s)
    (cur : Entry) (hfind : s.findEntry i = some cur) (hready : cur.state = .ready) :
    WF (s.evictOne i now) := by
  have hmem0 : cur ∈ s.entries := List.mem_of_find?_eq_some hfind
  have hidx0 : cur.pageIndex = i := by
    have h := List.find?_some hfind
    rwa [beq_iff_eq] at h
  have hentries := evictOne_entries_some s i now cur hfind
  have hmm := evictOne_memoryManager_some s i now cur hfind
  have hprojs := evictOne_projs s i now
  have h1b : entryBytes cur = (cur.bytesEstimate : Int) := by
    unfold entryBytes
    rw [if_pos hready]
  have h1c : entryCount cur = 1 := by
    unfold entryCount
    rw [if_pos hready]
  have h2b : entryBytes { cur with
      texture := none, state := TexState.evicted, bytesEstimate := 0,
      pixelHeight := 0, pixelWidth := 0, lastUsedTs := now } = 0 := by
    simp [entryBytes]
  have h2c : entryCount { cur with
      texture := none, state := TexState.evicted, bytesEstimate := 0,
      pixelHeight := 0, pixelWidth := 0, lastUsedTs := now } = 0 := by
    simp [entryCount]
  have hB := sum_map_update entryBytes s.entries i
    (fun e => { e with
      texture := none, state := .evicted, bytesEstimate := 0,
      pixelHeight := 0, pixelWidth := 0, lastUsedTs := now })
    hWF.nodupIdx cur hmem0 hidx0
  have hC := sum_map_update entryCount s.entries i
    (fun e => { e with
      texture := none, state := .evicted, bytesEstimate := 0,
      pixelHeight := 0, pixelWidth := 0, lastUsedTs := now })
    hWF.nodupIdx cur hmem0 hidx0
  simp only [h1b, h2b, add_zero] at hB
  simp only [h1c, h2c, add_zero] at hC
  have hBsum : readyBytes ((s.evictOne i now).entries) =
      readyBytes s.entries - (cur.bytesEstimate : Int) := by
    rw [hentries]
    unfold readyBytes
    exact hB
  have hCsum : readyCount ((s.evictOne i now).entries) = readyCount s.entries - 1 := by
    rw [hentries]
    unfold readyCount
    exact hC
  have hble : entryBytes cur ≤ readyBytes s.entries :=
    sum_map_le entryBytes s.entries cur entryBytes_nonneg hmem0
  have hcle : entryCount cur ≤ readyCount s.entries :=
    sum_map_le entryCount s.entries cur entryCount_nonneg hmem0
  refine ⟨?_, ?_, ?_, ?_, ?_, ?_, ?_, ?_⟩
  · rw [hentries, map_update_idx s.entries i
      (fun e => { e with
        texture := none, state := .evicted, bytesEstimate := 0,
        pixelHeight := 0, pixelWidth := 0, lastUsedTs := now }) (fun x => rfl)]
    exact hWF.nodupIdx
  · rw [hprojs.2.2.2.2.2.2.2.2.2.2.1]
    exact hWF.pendingNodup
  · intro j hj
    rw [hprojs.2.2.2.2.2.2.2.2.2.2.1] at hj
    obtain ⟨e, hf2, hl⟩ := hWF.pendingLoading j hj
    have hji : j ≠ i := by
      intro h
      subst h
      rw [hfind] at hf2
      cases hf2
      rw [hready] at hl
      cases hl
    rw [evictOne_findEntry_ne s i j now hji]
    exact ⟨e, hf2, hl⟩
  · rw [hprojs.2.2.2.2.2.2.2.2.2.2.2]
    exact hWF.prevNodup
  · intro j hj
    rw [hprojs.2.2.2.2.2.2.2.2.2.2.2] at hj
    obtain ⟨e, hf2, hl⟩ := hWF.prevLoading j hj
    by_cases hji : j = i
    · subst hji
      rw [evictOne_findEntry_self s j now cur hfind]
      rw [hfind] at hf2
      cases hf2
      exact ⟨_, rfl, hl⟩
    · rw [evictOne_findEntry_ne s i j now hji]
      exact ⟨e, hf2, hl⟩
  · rw [hmm, hBsum]
    show max 0 (s.memoryManager.currentBytes - (cur.bytesEstimate : Int)) = _
    rw [hWF.bytesAcct]
    rw [h1b] at hble
    rw [max_eq_right (sub_nonneg.mpr hble)]
  · rw [hmm, hCsum]
    show max 0 (s.memoryManager.currentCount - 1) = _
    rw [hWF.countAcct]
    rw [h1c] at hcle
    rw [max_eq_right (sub_nonneg.mpr hcle)]
  · intro hcanc e he hr
    rw [hprojs.2.2.2.2.2.2.2.2.2.1] at hcanc
    rw [hentries] at he
    rw [List.mem_map] at he
    obtain ⟨e1, he1, heq⟩ := he
    by_cases h : e1.pageIndex = i
    · rw [if_pos h] at heq
      rw [← heq] at hr
      cases hr
    · rw [if_neg h] at heq
      subst heq
      exact hWF.readyTexture hcanc e1 he1 hr

theorem WF_evictWalk (l : List (Entry × ℚ)) (s : TextureStreamManager) (now : Nat)
    (hWF : WF s)
    (hndl : (l.map (fun c => c.1.pageIndex)).Nodup)
    (hlive : ∀ c ∈ l, ∃ e, s.findEntry c.1.pageIndex = some e ∧ e.state = .ready) :
    WF (s.evictWalk l now) := by
  induction l generalizing s with
  | nil => exact hWF
  | cons c rest ih =>
    rw [List.map_cons, List.nodup_cons] at hndl
    rw [evictWalk_cons]
    split
    · obtain ⟨ec, hfc, hrc⟩ := hlive c (List.mem_cons_self c rest)
      refine ih (s.evictOne c.1.pageIndex now)
        (WF_evictOne s c.1.pageIndex now hWF ec hfc hrc) hndl.2 ?_
      intro d hd
      obtain ⟨e, hfd, hrd⟩ := hlive d (List.mem_cons_of_mem c hd)
      have hne : d.1.pageIndex ≠ c.1.pageIndex := by
        intro hcontra
        exact hndl.1 (hcontra ▸ List.mem_map_of_mem (fun x => x.1.pageIndex) hd)
      exact ⟨e, (evictOne_findEntry_ne s c.1.pageIndex d.1.pageIndex now hne).trans hfd, hrd⟩
    · exact hWF

theorem WF_evictIfNeeded (s : TextureStreamManager) (pinned : List Nat)
    (centerX centerY : ℚ) (now : Nat) (hWF : WF s) :
    WF (s.evictIfNeeded pinned centerX centerY now) := by
  unfold evictIfNeeded
  split
  · have hperm := evictionCandidatesSorted_perm s pinned centerX centerY
    refine WF_evictWalk _ s now hWF
      (evictionCandidatesSorted_idx_nodup s pinned centerX centerY hWF.nodupIdx) ?_
    intro c hc
    have hcc := (mem_evictionCandidates s pinned centerX centerY c).mp (hperm.subset hc)
    exact ⟨c.1, s.findEntry_eq_of_mem c.1 hWF.nodupIdx hcc.1, hcc.2.1⟩
  · exact hWF

theorem WF_updateVisibleSet (s : TextureStreamManager) (visibleSet : List Nat)
    (centerX centerY : ℚ) (now : Nat) (hWF : WF s) :
    WF (s.updateVisibleSet visibleSet centerX centerY now) := by
  unfold updateVisibleSet
  split
  · exact hWF
  · exact WF_pumpQueue _ (WF_evictIfNeeded _ _ centerX centerY now
      (WF_targetPhase s _ now hWF))

/-- The entry rewrite applied when a full-resolution render resolves on a
live manager. -/
def readyUpdate (r : RenderResult) (now : Nat) : Entry → Entry :=
  fun e => { e with texture := some r.imageSource, state := .ready,
                    pixelWidth := r.pixelWidth, pixelHeight := r.pixelHeight,
                    bytesEstimate := r.bytesEstimate, lastUsedTs := now }

/-- Settling a suspended full-resolution load preserves well-formedness. -/
theorem WF_finishLoad (s : TextureStreamManager) (i : Nat) (res : Option RenderResult)
    (now : Nat) (hWF : WF s) : WF (s.finishLoad i res now) := by
  by_cases hmem : i ∈ s.pendingLoads
  · obtain ⟨cur, hfc, hlc⟩ := hWF.pendingLoading i hmem
    have hmemE : cur ∈ s.entries := List.mem_of_find?_eq_some hfc
    have hidxE : cur.pageIndex = i := by
      have h := List.find?_some hfc
      rwa [beq_iff_eq] at h
    have hcb : entryBytes cur = 0 := by
      simp [entryBytes, hlc]
    have hcc : entryCount cur = 0 := by
      simp [entryCount, hlc]
    have hWF0 : WF { s with pendingLoads := s.pendingLoads.erase i } :=
      ⟨hWF.nodupIdx, hWF.pendingNodup.erase i,
       fun j hj => hWF.pendingLoading j (List.mem_of_mem_erase hj),
       hWF.prevNodup, hWF.prevLoading, hWF.bytesAcct, hWF.countAcct, hWF.readyTexture⟩
    cases res with
    | none =>
      have hkey : WF (setEntry { s with pendingLoads := s.pendingLoads.erase i } i
          (fun e => { e with state := TexState.error })) := by
        refine ⟨?_, hWF0.pendingNodup, ?_, hWF0.prevNodup, ?_, ?_, ?_, ?_⟩
        · show (((setEntry { s with pendingLoads := s.pendingLoads.erase i } i
            (fun e => { e with state := TexState.error })).entries).map
            Entry.pageIndex).Nodup
          rw [setEntry_idx _ i (fun e => { e with state := TexState.error }) (fun x => rfl)]
          exact hWF.nodupIdx
        · intro j hj
          have hj2 : j ∈ s.pendingLoads.erase i := hj
          have hji : j ≠ i := ((hWF.pendingNodup.mem_erase_iff).mp hj2).1
          rw [findEntry_setEntry_ne _ i j (fun e => { e with state := TexState.error })
            (fun x => rfl) hji]
          exact hWF.pendingLoading j (List.mem_of_mem_erase hj2)
        · intro j hj
          have hj2 : j ∈ s.pendingPreviews := hj
          obtain ⟨e, hf2, hl⟩ := hWF.prevLoading j hj2
          have hf0 : ({ s with pendingLoads := s.pendingLoads.erase i }
              : TextureStreamManager).findEntry j = some e := hf2
          by_cases hji : j = i
          · subst hji
            refine ⟨{ e with state := TexState.error }, ?_, hl⟩
            refine (findEntry_setEntry_self _ j (fun e => { e with state := TexState.error })
              (fun x => rfl)).trans ?_
            rw [hf0]
            rfl
          · exact ⟨e, (findEntry_setEntry_ne _ i j (fun e => { e with state := TexState.error })
              (fun x => rfl) hji).trans hf0, hl⟩
        · have hB := setEntry_readyBytes { s with pendingLoads := s.pendingLoads.erase i }
            i (fun e => { e with state := TexState.error }) hWF.nodupIdx cur hmemE hidxE
          have hB2 : readyBytes ((setEntry { s with pendingLoads := s.pendingLoads.erase i }
              i (fun e => { e with state := TexState.error })).entries)
              = readyBytes s.entries - entryBytes cur
                + entryBytes { cur with state := TexState.error } := hB
          have h2 : entryBytes { cur with state := TexState.error } = 0 := by
            simp [entryBytes]
          show s.memoryManager.currentBytes =
            readyBytes ((setEntry { s with pendingLoads := s.pendingLoads.erase i } i
              (fun e => { e with state := TexState.error })).entries)
          rw [hB2, hcb, h2, sub_zero, add_zero, hWF.bytesAcct]
        · have hC := setEntry_readyCount { s with pendingLoads := s.pendingLoads.erase i }
            i (fun e => { e with state := TexState.error }) hWF.nodupIdx cur hmemE hidxE
          have hC2 : readyCount ((setEntry { s with pendingLoads := s.pendingLoads.erase i }
              i (fun e => { e with state := TexState.error })).entries)
              = readyCount s.entries - entryCount cur
                + entryCount { cur with state := TexState.error } := hC
          have h2 : entryCount { cur with state := TexState.error } = 0 := by
            simp [entryCount]
          show s.memoryManager.currentCount =
            readyCount ((setEntry { s with pendingLoads := s.pendingLoads.erase i } i
              (fun e => { e with state := TexState.error })).entries)
          rw [hC2, hcc, h2, sub_zero, add_zero, hWF.countAcct]
        · intro hcanc e he hr
          have hc2 : s.cancelled = false := hcanc
          have he2 : e ∈ s.entries.map (fun e1 =>
              if e1.pageIndex = i then { e1 with state := TexState.error } else e1) := he
          rw [List.mem_map] at he2
          obtain ⟨e1, he1, heq⟩ := he2
          by_cases h : e1.pageIndex = i
          · rw [if_pos h] at heq
            rw [← heq] at hr
            cases hr
          · rw [if_neg h] at heq
            subst heq
            exact hWF.readyTexture hc2 e1 he1 hr
      have hfin : WF (s.finishLoad i none now) := by
        simp only [finishLoad, hmem, if_pos]
        exact WF_pumpQueue _ (WF_congr _ _ hkey rfl rfl rfl rfl rfl)
      exact hfin
    | some r =>
      cases hc : s.cancelled with
      | true =>
        have hfin : WF (s.finishLoad i (some r) now) := by
          simp only [finishLoad, hmem, if_pos, hc]
          exact WF_pumpQueue _ (WF_congr _ _ hWF0 rfl rfl rfl rfl hc.symm)
        exact hfin
      | false =>
        have hkeyA : WF { (setEntry { s with pendingLoads := s.pendingLoads.erase i } i
            (readyUpdate r now)) with
              memoryManager := s.memoryManager.add (r.bytesEstimate : Int) } := by
          refine ⟨?_, ?_, ?_, ?_, ?_, ?_, ?_, ?_⟩
          · show (((setEntry { s with pendingLoads := s.pendingLoads.erase i } i
              (readyUpdate r now)).entries).map Entry.pageIndex).Nodup
            rw [setEntry_idx _ i (readyUpdate r now) (fun x => rfl)]
            exact hWF.nodupIdx
          · exact hWF.pendingNodup.erase i
          · intro j hj
            have hj2 : j ∈ s.pendingLoads.erase i := hj
            have hji : j ≠ i := ((hWF.pendingNodup.mem_erase_iff).mp hj2).1
            obtain ⟨e, hf2, hl⟩ := hWF.pendingLoading j (List.mem_of_mem_erase hj2)
            refine ⟨e, ?_, hl⟩
            show (setEntry { s with pendingLoads := s.pendingLoads.erase i } i
              (readyUpdate r now)).findEntry j = some e
            rw [findEntry_setEntry_ne _ i j (readyUpdate r now) (fun x => rfl) hji]
            exact hf2
          · exact hWF.prevNodup
          · intro j hj
            have hj2 : j ∈ s.pendingPreviews := hj
            obtain ⟨e, hf2, hl⟩ := hWF.prevLoading j hj2
            have hf0 : ({ s with pendingLoads := s.pendingLoads.erase i }
                : TextureStreamManager).findEntry j = some e := hf2
            by_cases hji : j = i
            · subst hji
              refine ⟨readyUpdate r now e, ?_, hl⟩
              show (setEntry { s with pendingLoads := s.pendingLoads.erase j } j
                (readyUpdate r now)).findEntry j = some (readyUpdate r now e)
              rw [findEntry_setEntry_self _ j (readyUpdate r now) (fun x => rfl), hf0]
              rfl
            · refine ⟨e, ?_, hl⟩
              show (setEntry { s with pendingLoads := s.pendingLoads.erase i } i
                (readyUpdate r now)).findEntry j = some e
              rw [findEntry_setEntry_ne _ i j (readyUpdate r now) (fun x => rfl) hji]
              exact hf0
          · have hB := setEntry_readyBytes { s with pendingLoads := s.pendingLoads.erase i }
              i (readyUpdate r now) hWF.nodupIdx cur hmemE hidxE
            have hB2 : readyBytes ((setEntry { s with pendingLoads := s.pendingLoads.erase i }
                i (readyUpdate r now)).entries)
                = readyBytes s.entries - entryBytes cur
                  + entryBytes (readyUpdate r now cur) := hB
            have h2 : entryBytes (readyUpdate r now cur) = (r.bytesEstimate : Int) := by
              simp [entryBytes, readyUpdate]
            show s.memoryManager.currentBytes + (r.bytesEstimate : Int) =
              readyBytes ((setEntry { s with pendingLoads := s.pendingLoads.erase i } i
                (readyUpdate r now)).entries)
            rw [hB2, hcb, h2, sub_zero, hWF.bytesAcct]
          · have hC := setEntry_readyCount { s with pendingLoads := s.pendingLoads.erase i }
              i (readyUpdate r now) hWF.nodupIdx cur hmemE hidxE
            have hC2 : readyCount ((setEntry { s with pendingLoads := s.pendingLoads.erase i }
                i (readyUpdate r now)).entries)
                = readyCount s.entries - entryCount cur
                  + entryCount (readyUpdate r now cur) := hC
            have h2 : entryCount (readyUpdate r now cur) = 1 := by
              simp [entryCount, readyUpdate]
            show s.memoryManager.currentCount + 1 =
              readyCount ((setEntry { s with pendingLoads := s.pendingLoads.erase i } i
                (readyUpdate r now)).entries)
            rw [hC2, hcc, h2, sub_zero, hWF.countAcct]
          · intro hcanc e he hr
            have he2 : e ∈ s.entries.map (fun e1 =>
                if e1.pageIndex = i then readyUpdate r now e1 else e1) := he
            rw [List.mem_map] at he2
            obtain ⟨e1, he1, heq⟩ := he2
            by_cases h : e1.pageIndex = i
            · rw [if_pos h] at heq
              subst heq
              rfl
            · rw [if_neg h] at heq
              subst heq
              exact hWF.readyTexture hc e1 he1 hr
        have hfin : WF (s.finishLoad i (some r) now) := by
          have hneg : ¬(s.cancelled = true) := by
            rw [hc]
            exact Bool.false_ne_true
          simp only [finishLoad, hmem, if_pos]
          rw [if_neg hneg]
          exact WF_pumpQueue _ (WF_congr _ _ hkeyA rfl rfl rfl rfl rfl)
        exact hfin
  · have hfin : WF (s.finishLoad i res now) := by
      unfold finishLoad
      rw [if_neg hmem]
      exact hWF
    exact hfin

/-- `setEntry` with a rewrite that touches only the preview fields of an
entry not backing a pending preview task preserves well-formedness. -/
theorem WF_setEntry_preview (s : TextureStreamManager) (i : Nat) (f : Entry → Entry)
    (hWF : WF s)
    (hidx : ∀ x, (f x).pageIndex = x.pageIndex)
    (hstate : ∀ x, (f x).state = x.state)
    (hbytes : ∀ x, (f x).bytesEstimate = x.bytesEstimate)
    (htex : ∀ x, (f x).texture = x.texture)
    (hni : i ∉ s.pendingPreviews) :
    WF (s.setEntry i f) := by
  refine ⟨?_, hWF.pendingNodup, ?_, hWF.prevNodup, ?_, ?_, ?_, ?_⟩
  · show ((s.entries.map fun e => if e.pageIndex = i then f e else e).map
      Entry.pageIndex).Nodup
    rw [map_update_idx s.entries i f hidx]
    exact hWF.nodupIdx
  · intro j hj
    obtain ⟨e, hf2, hl⟩ := hWF.pendingLoading j hj
    by_cases hji : j = i
    · subst hji
      rw [s.findEntry_setEntry_self j f hidx, hf2]
      exact ⟨f e, rfl, (hstate e).trans hl⟩
    · rw [s.findEntry_setEntry_ne i j f hidx hji]
      exact ⟨e, hf2, hl⟩
  · intro j hj
    have hji : j ≠ i := fun h => hni (h ▸ hj)
    obtain ⟨e, hf2, hl⟩ := hWF.prevLoading j hj
    rw [s.findEntry_setEntry_ne i j f hidx hji]
    exact ⟨e, hf2, hl⟩
  · show s.memoryManager.currentBytes = readyBytes
      (s.entries.map fun e => if e.pageIndex = i then f e else e)
    rw [hWF.bytesAcct]
    unfold readyBytes
    rw [sum_map_update_invariant entryBytes s.entries i f ?_]
    intro x
    unfold entryBytes
    rw [hstate, hbytes]
  · show s.memoryManager.currentCount = readyCount
      (s.entries.map fun e => if e.pageIndex = i then f e else e)
    rw [hWF.countAcct]
    unfold readyCount
    rw [sum_map_update_invariant entryCount s.entries i f ?_]
    intro x
    unfold entryCount
    rw [hstate]
  · intro hcanc e he hr
    have he2 : e ∈ s.entries.map (fun e1 => if e1.pageIndex = i then f e1 else e1) := he
    rw [List.mem_map] at he2
    obtain ⟨e1, he1, heq⟩ := he2
    by_cases h : e1.pageIndex = i
    · rw [if_pos h] at heq
      subst heq
      rw [htex]
      exact hWF.readyTexture hcanc e1 he1 ((hstate e1).symm.trans hr)
    · rw [if_neg h] at heq
      subst heq
      exact hWF.readyTexture hcanc e1 he1 hr

/-- Settling a suspended preview load preserves well-formedness. -/
theorem WF_finishPreview (s : TextureStreamManager) (i : Nat)
    (res : Option RenderResult) (hWF : WF s) : WF (s.finishPreview i res) := by
  by_cases hmem : i ∈ s.pendingPreviews
  · have hWF0 : WF { s with pendingPreviews := s.pendingPreviews.erase i } :=
      ⟨hWF.nodupIdx, hWF.pendingNodup, hWF.pendingLoading,
       hWF.prevNodup.erase i,
       fun j hj => hWF.prevLoading j (List.mem_of_mem_erase hj),
       hWF.bytesAcct, hWF.countAcct, hWF.readyTexture⟩
    have hni : i ∉ s.pendingPreviews.erase i :=
      fun h => ((hWF.prevNodup.mem_erase_iff).mp h).1 rfl
    cases res with
    | none =>
      have hkey : WF (setEntry { s with pendingPreviews := s.pendingPreviews.erase i } i
          (fun e => { e with previewState := TexState.error })) :=
        WF_setEntry_preview { s with pendingPreviews := s.pendingPreviews.erase i } i
          (fun e => { e with previewState := TexState.error })
          hWF0 (fun x => rfl) (fun x => rfl) (fun x => rfl) (fun x => rfl) hni
      have hfin : WF (s.finishPreview i none) := by
        simp only [finishPreview, hmem, if_pos]
        exact WF_pumpPreviewQueue _ (WF_congr _ _ hkey rfl rfl rfl rfl rfl)
      exact hfin
    | some r =>
      cases hc : s.cancelled with
      | true =>
        have hfin : WF (s.finishPreview i (some r)) := by
          simp only [finishPreview, hmem, if_pos, hc]
          exact WF_pumpPreviewQueue _ (WF_congr _ _ hWF0 rfl rfl rfl rfl hc.symm)
        exact hfin
      | false =>
        have hkeyA : WF (setEntry { s with pendingPreviews := s.pendingPreviews.erase i } i
            (fun e => { e with
              previewTexture := some r.imageSource, previewState := TexState.ready })) :=
          WF_setEntry_preview { s with pendingPreviews := s.pendingPreviews.erase i } i
            (fun e => { e with
              previewTexture := some r.imageSource, previewState := TexState.ready })
            hWF0 (fun x => rfl) (fun x => rfl) (fun x => rfl) (fun x => rfl) hni
        have hfin : WF (s.finishPreview i (some r)) := by
          have hneg : ¬(s.cancelled = true) := by
            rw [hc]
            exact Bool.false_ne_true
          simp only [finishPreview, hmem, if_pos]
          rw [if_neg hneg]
          split
          · split
            · exact WF_pumpPreviewQueue _ (WF_congr _ _ hkeyA rfl rfl rfl rfl rfl)
            · exact WF_pumpPreviewQueue _ (WF_congr _ _ hkeyA rfl rfl rfl rfl rfl)
          · exact WF_pumpPreviewQueue _ (WF_congr _ _ hkeyA rfl rfl rfl rfl rfl)
        exact hfin
  · have hfin : WF (s.finishPreview i res) := by
      unfold finishPreview
      rw [if_neg hmem]
      exact hWF
    exact hfin

/-- `dispose()` preserves well-formedness: the entry rewrite nulls only
resource handles, the tracker and pending task lists are untouched, and
the resource clause becomes vacuous once the cancelled flag is set. -/
theorem WF_dispose (s : TextureStreamManager) (hWF : WF s) : WF (s.dispose) := by
  have hfind : ∀ j, (s.dispose).findEntry j =
      (s.findEntry j).map (fun e => { e with texture := none, previewTexture := none }) := by
    intro j
    exact find?_map_global s.entries
      (fun e => { e with texture := none, previewTexture := none }) (fun x => rfl) j
  refine ⟨?_, hWF.pendingNodup, ?_, hWF.prevNodup, ?_, ?_, ?_, ?_⟩
  · show ((s.entries.map (fun e => { e with texture := none, previewTexture := none })).map
      Entry.pageIndex).Nodup
    rw [List.map_map]
    have hcomp : (Entry.pageIndex ∘ fun e : Entry =>
        { e with texture := none, previewTexture := none }) = Entry.pageIndex := rfl
    rw [hcomp]
    exact hWF.nodupIdx
  · intro j hj
    obtain ⟨e, hf2, hl⟩ := hWF.pendingLoading j hj
    rw [hfind j, hf2]
    exact ⟨_, rfl, hl⟩
  · intro j hj
    obtain ⟨e, hf2, hl⟩ := hWF.prevLoading j hj
    rw [hfind j, hf2]
    exact ⟨_, rfl, hl⟩
  · show s.memoryManager.currentBytes = readyBytes
      (s.entries.map (fun e => { e with texture := none, previewTexture := none }))
    rw [hWF.bytesAcct]
    unfold readyBytes
    rw [List.map_map]
    have hcomp : (entryBytes ∘ fun e : Entry =>
        { e with texture := none, previewTexture := none }) = entryBytes := rfl
    rw [hcomp]
  · show s.memoryManager.currentCount = readyCount
      (s.entries.map (fun e => { e with texture := none, previewTexture := none }))
    rw [hWF.countAcct]
    unfold readyCount
    rw [List.map_map]
    have hcomp : (entryCount ∘ fun e : Entry =>
        { e with texture := none, previewTexture := none }) = entryCount := rfl
    rw [hcomp]
  · intro hcanc e he hr
    have hcontra : (true : Bool) = false := hcanc
    cases hcontra

/-- The freshly constructed manager is well-formed whenever the layout's
page indices are pairwise distinct. -/
theorem WF_init (pages : List Page) (columns : Nat) (policy : MemoryPolicy)
    (hnd : (pages.map Page.pageIndex).Nodup) :
    WF (init pages columns policy) := by
  have hbase : WF ({
      pages := pages, columns := columns,
      memoryManager := MemoryManager.init policy,
      entries := pages.map (fun p =>
        { pageIndex := p.pageIndex, texture := none, previewTexture := none,
          previewState := .unloaded, state := .unloaded,
          pixelWidth := 0, pixelHeight := 0, bytesEstimate := 0, lastUsedTs := 0 }),
      loadQueue := [], activeLoads := 0, maxConcurrentLoads := 2,
      previewQueue := pages.map (fun p => p.pageIndex),
      activePreviewLoads := 0, maxConcurrentPreviewLoads := 1,
      preloadRing := 1, cancelled := false,
      pendingLoads := [], pendingPreviews := [], scene := [], closedBitmaps := [] }
      : TextureStreamManager) := by
    refine ⟨?_, List.nodup_nil, ?_, List.nodup_nil, ?_, ?_, ?_, ?_⟩
    · have h : ((pages.map (fun p =>
          ({ pageIndex := p.pageIndex, texture := none, previewTexture := none,
             previewState := .unloaded, state := .unloaded, pixelWidth := 0,
             pixelHeight := 0, bytesEstimate := 0, lastUsedTs := 0 } : Entry))).map
          Entry.pageIndex).Nodup := by
        rw [List.map_map]
        have hcomp : (Entry.pageIndex ∘ fun p : Page =>
            ({ pageIndex := p.pageIndex, texture := none, previewTexture := none,
               previewState := .unloaded, state := .unloaded, pixelWidth := 0,
               pixelHeight := 0, bytesEstimate := 0, lastUsedTs := 0 } : Entry))
            = Page.pageIndex := rfl
        rw [hcomp]
        exact hnd
      exact h
    · intro j hj
      exact absurd hj (List.not_mem_nil j)
    · intro j hj
      exact absurd hj (List.not_mem_nil j)
    · have h : readyBytes (pages.map (fun p =>
          ({ pageIndex := p.pageIndex, texture := none, previewTexture := none,
             previewState := .unloaded, state := .unloaded, pixelWidth := 0,
             pixelHeight := 0, bytesEstimate := 0, lastUsedTs := 0 } : Entry))) = 0 := by
        unfold readyBytes
        rw [List.map_map]
        refine List.sum_eq_zero ?_
        intro x hx
        rw [List.mem_map] at hx
        obtain ⟨p, -, rfl⟩ := hx
        rfl
      exact h.symm
    · have h : readyCount (pages.map (fun p =>
          ({ pageIndex := p.pageIndex, texture := none, previewTexture := none,
             previewState := .unloaded, state := .unloaded, pixelWidth := 0,
             pixelHeight := 0, bytesEstimate := 0, lastUsedTs := 0 } : Entry))) = 0 := by
        unfold readyCount
        rw [List.map_map]
        refine List.sum_eq_zero ?_
        intro x hx
        rw [List.mem_map] at hx
        obtain ⟨p, -, rfl⟩ := hx
        rfl
      exact h.symm
    · intro hcanc e he hr
      have he2 : e ∈ pages.map (fun p =>
          ({ pageIndex := p.pageIndex, texture := none, previewTexture := none,
             previewState := .unloaded, state := .unloaded, pixelWidth := 0,
             pixelHeight := 0, bytesEstimate := 0, lastUsedTs := 0 } : Entry)) := he
      rw [List.mem_map] at he2
      obtain ⟨p, -, rfl⟩ := he2
      cases hr
  exact WF_pumpPreviewQueue _ hbase

/-- Every event preserves well-formedness. -/
theorem WF_step (s : TextureStreamManager) (op : Op) (hWF : WF s) : WF (s.step op) := by
  cases op with
  | update v cx cy now => exact WF_updateVisibleSet s v cx cy now hWF
  | finishLoad i r now => exact WF_finishLoad s i r now hWF
  | finishPreview i r => exact WF_finishPreview s i r hWF
  | dispose => exact WF_dispose s hWF

/-- Well-formedness is preserved by any event sequence. -/
theorem WF_run (s : TextureStreamManager) (ops : List Op) (hWF : WF s) :
    WF (s.run ops) := by
  induction ops generalizing s with
  | nil => exact hWF
  | cons op rest ih => exact ih (s.step op) (WF_step s op hWF)

/-- Every reachable state of the streaming cache — any event sequence run
from the constructor on a layout with distinct page indices — is
well-formed. -/
theorem WF_reachable (pages : List Page) (columns : Nat) (policy : MemoryPolicy)
    (ops : List Op) (hnd : (pages.map Page.pageIndex).Nodup) :
    WF ((init pages columns policy).run ops) :=
  WF_run _ ops (WF_init pages columns policy hnd)

end TextureStreamManager

/-! ### Claims C4 and C5 -/

/-- C4 (counterexample to the claim as stated): the claim quantifies over
every reachable state "including dispose", but in the reachable state
`stateDisposedReady` — a completed full-resolution load followed by
`dispose()` — there is an entry whose full-resolution state is `ready`
while its resource handle is null, because `dispose()` nulls the handles
and leaves the states untouched. -/
theorem C4_counterexample :
    ∃ e ∈ stateDisposedReady.entries, e.state = .ready ∧ e.texture = none := by
  decide

/-- C4 (amended): in every reachable state of the cache the budget
tracker's bytes equal the summed byte estimates of exactly the `ready`
entries and its count equals the number of `ready` entries — so a `ready`
entry's bytes are included and any other entry's bytes are excluded — and,
as long as `dispose()` has not run, every `ready` entry holds a non-null
resource handle. -/
theorem C4_reachable_accounting (pages : List Page) (columns : Nat)
    (policy : MemoryPolicy) (ops : List Op)
    (hnd : (pages.map Page.pageIndex).Nodup) :
    ((TextureStreamManager.init pages columns policy).run ops).memoryManager.currentBytes
        = readyBytes ((TextureStreamManager.init pages columns policy).run ops).entries ∧
    ((TextureStreamManager.init pages columns policy).run ops).memoryManager.currentCount
        = readyCount ((TextureStreamManager.init pages columns policy).run ops).entries ∧
    (((TextureStreamManager.init pages columns policy).run ops).cancelled = false →
      ∀ e ∈ ((TextureStreamManager.init pages columns policy).run ops).entries,
        e.state = .ready → e.texture.isSome) := by
  have h := TextureStreamManager.WF_reachable pages columns policy ops hnd
  exact ⟨h.bytesAcct, h.countAcct, h.readyTexture⟩

/-- Witness for C4 at a concrete run: one page, count cap `-1`, one
visibility pass that left page 0's full-resolution load in flight. -/
theorem C4_witness :
    stateOneLoadInFlight.memoryManager.currentBytes
        = readyBytes stateOneLoadInFlight.entries ∧
    stateOneLoadInFlight.memoryManager.currentCount
        = readyCount stateOneLoadInFlight.entries ∧
    (stateOneLoadInFlight.cancelled = false →
      ∀ e ∈ stateOneLoadInFlight.entries, e.state = .ready → e.texture.isSome) :=
  C4_reachable_accounting [⟨0, 0, 0, 0, 0⟩] 1 ⟨100, -1, 1⟩ [Op.update [0] 0 0 1]
    (by decide)

/-- C5: in every reachable state of the cache, the suspended
full-resolution load tasks carry pairwise distinct page indices and each
backs an entry whose full-resolution tier is `loading`, and likewise for
the suspended preview tasks and the preview tier — so at no observable
instant do two in-flight load tasks exist for the same page index in the
same tier. -/
theorem C5_single_flight (pages : List Page) (columns : Nat)
    (policy : MemoryPolicy) (ops : List Op)
    (hnd : (pages.map Page.pageIndex).Nodup) :
    ((TextureStreamManager.init pages columns policy).run ops).pendingLoads.Nodup ∧
    ((TextureStreamManager.init pages columns policy).run ops).pendingPreviews.Nodup ∧
    (∀ i ∈ ((TextureStreamManager.init pages columns policy).run ops).pendingLoads,
      ∃ e, ((TextureStreamManager.init pages columns policy).run ops).findEntry i
          = some e ∧ e.state = .loading) ∧
    (∀ i ∈ ((TextureStreamManager.init pages columns policy).run ops).pendingPreviews,
      ∃ e, ((TextureStreamManager.init pages columns policy).run ops).findEntry i
          = some e ∧ e.previewState = .loading) := by
  have h := TextureStreamManager.WF_reachable pages columns policy ops hnd
  exact ⟨h.pendingNodup, h.prevNodup, h.pendingLoading, h.prevLoading⟩

/-- Witness for C5 at a concrete run with one suspended full-resolution
load task for page 0. -/
theorem C5_witness :
    stateOneLoadInFlight.pendingLoads.Nodup ∧
    stateOneLoadInFlight.pendingPreviews.Nodup ∧
    (∀ i ∈ stateOneLoadInFlight.pendingLoads,
      ∃ e, stateOneLoadInFlight.findEntry i = some e ∧ e.state = .loading) ∧
    (∀ i ∈ stateOneLoadInFlight.pendingPreviews,
      ∃ e, stateOneLoadInFlight.findEntry i = some e ∧ e.previewState = .loading) :=
  C5_single_flight [⟨0, 0, 0, 0, 0⟩] 1 ⟨100, -1, 1⟩ [Op.update [0] 0 0 1] (by decide)
